import Mathlib

/-!
Verification of the enterprise file-backup engine (`ecpb`): a shallow
embedding of the chunk store, metadata store, restore engine, job scheduler
and dependency DAG, together with proofs about the system's specified
properties.

Modelling conventions:
* Bytes are `Nat`; file and chunk contents are `List Nat`.
* SHA-256, LZ4, ZSTD and AES-256-CBC are external primitives (OpenSSL and
  the compression libraries); they are modelled as the fields of a `Codec`
  parameter.  The hypotheses actually used (hash injectivity, compression
  and encryption round-trips) are collected in `GoodCodec`.  AES IV
  sampling is folded into the abstract `aesEncrypt` function.
* The content-addressed storage path `<dir>/chunks/<hex02>/<hex24>/<hex>`
  is a bijective function of the hash, so chunk files on disk are keyed by
  the hash value itself (`ChunkStore.get_chunk_path` is that bijection in
  the model).
* SQLite is modelled as an in-memory `Database` record.  Statement
  failures are modelled where a claim depends on them
  (`Database.store_file_manifest` takes a failure oracle); elsewhere the
  success path is modelled.  The `Transaction` RAII wrapper's rollback is
  modelled by returning the database state saved at `BEGIN`.
* The in-memory B+-tree cache `chunk_index_` mirrors the `chunks` table;
  chunk-path lookups are modelled through the database
  (`Database.get_chunk_path`), which is the fallback the code uses.
-/

/-- Fixed chunk size, `CHUNK_SIZE = 64 * 1024` from `types.h`. -/
def CHUNK_SIZE : Nat := 64 * 1024

/-- Compression algorithm tag, from `enum class CompressionType` in `types.h`. -/
inductive CompressionType where
  | NONE
  | LZ4
  | ZSTD
deriving DecidableEq

/-- Job status, from `enum class JobStatus` in `types.h`. -/
inductive JobStatus where
  | PENDING
  | RUNNING
  | COMPLETED
  | FAILED
  | CANCELLED
deriving DecidableEq

/-- External cryptographic and compression primitives used by the engine.
SHA-256 digests are abstracted to `Nat`-valued hashes; the compression
functions return `[]` on failure exactly as the C++ wrappers return an
empty vector; `aesEncrypt` already includes the prepended IV. -/
structure Codec where
  sha : List Nat → Nat
  lz4Compress : List Nat → List Nat
  lz4Decompress : List Nat → Nat → List Nat
  zstdCompress : List Nat → List Nat
  zstdDecompress : List Nat → Nat → List Nat
  aesEncrypt : List Nat → List Nat → List Nat
  aesDecrypt : List Nat → List Nat → List Nat

/-- `Compressor::compress` from `compressor.h`: dispatch on the algorithm tag. -/
def Compressor.compress (c : Codec) (data : List Nat) (t : CompressionType) : List Nat :=
  match t with
  | .NONE => data
  | .LZ4 => c.lz4Compress data
  | .ZSTD => c.zstdCompress data

/-- `Compressor::decompress` from `compressor.h`: dispatch on the algorithm
tag; `original_size` must be known. -/
def Compressor.decompress (c : Codec) (data : List Nat) (original_size : Nat)
    (t : CompressionType) : List Nat :=
  match t with
  | .NONE => data
  | .LZ4 => c.lz4Decompress data original_size
  | .ZSTD => c.zstdDecompress data original_size

/-- The properties of the external primitives that the correctness proofs
use: the hash is collision-free (the standard idealisation of SHA-256),
compression never fails and round-trips, and decryption inverts encryption. -/
structure GoodCodec (c : Codec) : Prop where
  sha_inj : ∀ a b, c.sha a = c.sha b → a = b
  lz4_ne : ∀ d, c.lz4Compress d ≠ []
  lz4_rt : ∀ d, c.lz4Decompress (c.lz4Compress d) d.length = d
  zstd_ne : ∀ d, c.zstdCompress d ≠ []
  zstd_rt : ∀ d, c.zstdDecompress (c.zstdCompress d) d.length = d
  enc_ne : ∀ k d, c.aesEncrypt k d ≠ []
  enc_rt : ∀ k d, c.aesDecrypt k (c.aesEncrypt k d) = d

/-- Chunk descriptor, `struct ChunkInfo` from `types.h`. -/
structure ChunkInfo where
  hash : Nat
  offset : Nat
  size : Nat
  chunk_index : Nat
  deduplicated : Bool
deriving DecidableEq

/-- File manifest, `struct FileManifest` from `types.h`. -/
structure FileManifest where
  file_path : String
  file_name : String
  file_size : Nat
  modified_time : Nat
  file_hash : Nat
  chunks : List ChunkInfo
deriving DecidableEq

/-- A row of the `chunks` table (also `Database::ChunkMeta` in `dag.h`). -/
structure ChunkRecord where
  hash : Nat
  storage_path : Nat
  original_size : Nat
  stored_size : Nat
  compression : CompressionType
  encrypted : Bool
  ref_count : Nat
deriving DecidableEq

/-- A row of the `file_manifests` table from `dag.h`. -/
structure ManifestRow where
  manifest_id : Nat
  job_id : Nat
  file_path : String
  file_name : String
  file_size : Nat
  modified_time : Nat
  file_hash : Nat
deriving DecidableEq

/-- A row of the `file_chunks` table from `dag.h`. -/
structure FileChunkRow where
  manifest_id : Nat
  chunk_hash : Nat
  chunk_index : Nat
  offset : Nat
  size : Nat
  deduplicated : Bool
deriving DecidableEq

/-- Backup job, `struct BackupJob` from `types.h` (timestamp and counter
fields not read by any verified operation are omitted). -/
structure BackupJob where
  job_id : Nat
  source_path : String
  backup_name : String
  status : JobStatus
  priority : Nat
  compression : CompressionType
  encrypt : Bool
  error_message : String
deriving DecidableEq

/-- The metadata store (`class Database` in `dag.h`): the SQLite tables as
in-memory lists of rows, in insertion order. -/
structure Database where
  jobs : List BackupJob
  chunks : List ChunkRecord
  manifests : List ManifestRow
  file_chunks : List FileChunkRow
  encryption_keys : List (Nat × List Nat)
  next_manifest_id : Nat
deriving DecidableEq

/-- The empty metadata store (freshly created tables). -/
def Database.empty : Database :=
  { jobs := [], chunks := [], manifests := [], file_chunks := [],
    encryption_keys := [], next_manifest_id := 0 }

/-- `Database::get_job`: `SELECT * FROM jobs WHERE job_id=?`. -/
def Database.get_job (db : Database) (job_id : Nat) : Option BackupJob :=
  db.jobs.find? (fun j => j.job_id = job_id)

/-- `Database::chunk_exists`: `SELECT 1 FROM chunks WHERE hash=?`. -/
def Database.chunk_exists (db : Database) (h : Nat) : Bool :=
  db.chunks.any (fun r => r.hash = h)

/-- `Database::get_chunk_path`: `SELECT storage_path FROM chunks WHERE
hash=?`; the C++ returns the empty string when no row matches, which the
callers treat as failure, so the model returns an `Option`. -/
def Database.get_chunk_path (db : Database) (h : Nat) : Option Nat :=
  (db.chunks.find? (fun r => r.hash = h)).map (fun r => r.storage_path)

/-- `Database::get_chunk_meta`: the whole `chunks` row for a hash. -/
def Database.get_chunk_meta (db : Database) (h : Nat) : Option ChunkRecord :=
  db.chunks.find? (fun r => r.hash = h)

/-- `Database::increment_chunk_ref`: `UPDATE chunks SET ref_count =
ref_count + 1 WHERE hash=?`. -/
def Database.increment_chunk_ref (db : Database) (h : Nat) : Database :=
  { db with chunks := db.chunks.map (fun r =>
      if r.hash = h then { r with ref_count := r.ref_count + 1 } else r) }

/-- `Database::store_chunk`: `INSERT OR IGNORE` of a chunk row with
`ref_count = 1`; when the insert was ignored because the row already
existed, `ref_count` is incremented instead.  The enclosing write
transaction is modelled on its success path. -/
def Database.store_chunk (db : Database) (h path orig stored : Nat)
    (comp : CompressionType) (enc : Bool) : Database :=
  if db.chunks.any (fun r => r.hash = h) then
    db.increment_chunk_ref h
  else
    { db with chunks := db.chunks ++
        [{ hash := h, storage_path := path, original_size := orig,
           stored_size := stored, compression := comp, encrypted := enc,
           ref_count := 1 }] }

/-- `Database::store_encryption_key`: `INSERT OR REPLACE INTO
encryption_keys`. -/
def Database.store_encryption_key (db : Database) (job_id : Nat)
    (key : List Nat) : Database :=
  if db.encryption_keys.any (fun p => p.1 = job_id) then
    { db with encryption_keys := db.encryption_keys.map (fun p =>
        if p.1 = job_id then (job_id, key) else p) }
  else
    { db with encryption_keys := db.encryption_keys ++ [(job_id, key)] }

/-- `Database::get_encryption_key`; the C++ returns the empty string when
no row matches, which the caller treats as failure, so the model returns
an `Option`. -/
def Database.get_encryption_key (db : Database) (job_id : Nat) : Option (List Nat) :=
  (db.encryption_keys.find? (fun p => p.1 = job_id)).map (fun p => p.2)

/-- `Database::update_job_status`: the SQL text depends on the target
status — only a transition to COMPLETED or FAILED stores the error
message (RUNNING stores `started_at`, any other status stores the status
alone).  Timestamps are elided. -/
def Database.update_job_status (db : Database) (job_id : Nat)
    (status : JobStatus) (error : String) : Database :=
  { db with jobs := db.jobs.map (fun j =>
      if j.job_id = job_id then
        if status = .RUNNING then { j with status := status }
        else if status = .COMPLETED ∨ status = .FAILED then
          { j with status := status, error_message := error }
        else { j with status := status }
      else j) }

/-- The chunk-reference insert loop of `Database::store_file_manifest`:
the n-th prepared-statement step fails when the oracle says so, which
makes the whole call roll back. -/
def storeChunkRowsGo (fail : Nat → Bool) (mid : Nat) :
    Nat → List ChunkInfo → Database → Option Database
  | _, [], db => some db
  | step, ch :: rest, db =>
    if fail step then none
    else storeChunkRowsGo fail mid (step + 1) rest
      { db with file_chunks := db.file_chunks ++
          [{ manifest_id := mid, chunk_hash := ch.hash,
             chunk_index := ch.chunk_index, offset := ch.offset,
             size := ch.size, deduplicated := ch.deduplicated }] }

/-- `Database::store_file_manifest`: one transaction inserting the manifest
header and then every chunk reference.  `fail n` models the n-th SQLite
step failing (step 0 is the header insert, steps 1..k the chunk rows,
step k+1 the COMMIT); on any failure the `Transaction` destructor rolls
back, restoring the state saved at BEGIN. -/
def Database.store_file_manifest (db : Database) (fail : Nat → Bool)
    (job_id : Nat) (m : FileManifest) : Bool × Database :=
  if fail 0 then (false, db)
  else
    let mid := db.next_manifest_id
    let db1 : Database := { db with
      manifests := db.manifests ++
        [{ manifest_id := mid, job_id := job_id, file_path := m.file_path,
           file_name := m.file_name, file_size := m.file_size,
           modified_time := m.modified_time, file_hash := m.file_hash }],
      next_manifest_id := mid + 1 }
    match storeChunkRowsGo fail mid 1 m.chunks db1 with
    | none => (false, db)
    | some db2 => if fail (m.chunks.length + 1) then (false, db) else (true, db2)

/-- Ordered insertion by `chunk_index`, used to model the SQL
`ORDER BY chunk_index`. -/
def insertByIdx (fc : FileChunkRow) : List FileChunkRow → List FileChunkRow
  | [] => [fc]
  | x :: xs =>
    if fc.chunk_index ≤ x.chunk_index then fc :: x :: xs
    else x :: insertByIdx fc xs

/-- Sort chunk rows by ascending `chunk_index` (the SQL
`ORDER BY chunk_index`). -/
def sortByIdx : List FileChunkRow → List FileChunkRow
  | [] => []
  | x :: xs => insertByIdx x (sortByIdx xs)

/-- `Database::get_file_manifests`: manifests of a job with their chunk
rows in ascending `chunk_index`. -/
def Database.get_file_manifests (db : Database) (job_id : Nat) : List FileManifest :=
  (db.manifests.filter (fun row => row.job_id = job_id)).map (fun row =>
    { file_path := row.file_path, file_name := row.file_name,
      file_size := row.file_size, modified_time := row.modified_time,
      file_hash := row.file_hash,
      chunks := (sortByIdx (db.file_chunks.filter
          (fun fc => fc.manifest_id = row.manifest_id))).map (fun fc =>
        { hash := fc.chunk_hash, offset := fc.offset, size := fc.size,
          chunk_index := fc.chunk_index, deduplicated := fc.deduplicated }) })

/-- Chunk files on disk: an association from storage path to stored bytes. -/
abbrev Disk : Type := List (Nat × List Nat)

/-- Read a chunk file (an `ifstream` over the whole file). -/
def diskLookup (disk : Disk) (p : Nat) : Option (List Nat) :=
  (List.find? (fun q => q.1 = p) disk).map (fun q => q.2)

/-- Write a chunk file, overwriting any previous content at the path: the
newest entry shadows older ones under `diskLookup`. -/
def diskWrite (disk : Disk) (p : Nat) (data : List Nat) : Disk :=
  (p, data) :: disk

/-- Combined state touched by the chunk store: the metadata database and
the content-addressed chunk files on disk. -/
structure StoreState where
  db : Database
  disk : Disk

/-- The chunk-store state with empty database and empty storage directory. -/
def emptyStoreState : StoreState := { db := Database.empty, disk := [] }

/-- `ChunkStore::get_chunk_path`: the content-addressed storage path
`<dir>/chunks/<hex02>/<hex24>/<hex>` is a bijective function of the hash,
modelled by the hash value itself. -/
def ChunkStore.get_chunk_path (h : Nat) : Nat := h

/-- Fuelled body of the read loop of `ChunkStore::store_file`.  The fuel
only makes the recursion structural (so that the kernel can evaluate it);
`chunkSplit` always supplies enough, see `chunkSplitGo_fuel`. -/
def chunkSplitGo : Nat → List Nat → List (List Nat)
  | _, [] => []
  | 0, l => [l]
  | fuel + 1, l => l.take CHUNK_SIZE :: chunkSplitGo fuel (l.drop CHUNK_SIZE)

/-- The read loop of `ChunkStore::store_file`: split a file's bytes into
windows of `CHUNK_SIZE`, the last one possibly smaller. -/
def chunkSplit (l : List Nat) : List (List Nat) :=
  chunkSplitGo l.length l

/-- The transform pipeline of `ChunkStore::store_file`, in the code's
order: compress (falling back to the raw bytes when compression returns
empty), then encrypt. -/
def encodePipeline (c : Codec) (comp : CompressionType) (encrypt : Bool)
    (key : List Nat) (d : List Nat) : List Nat :=
  let processed :=
    if comp ≠ CompressionType.NONE then
      let p := Compressor.compress c d comp
      if p = [] then d else p
    else d
  if encrypt then c.aesEncrypt key processed else processed

/-- One iteration of the chunking loop of `ChunkStore::store_file`:
dedup check, transform pipeline, write to content-addressed storage and
record in the database.  Returns `none` when the iteration hits
`continue` (encryption failed), mirroring that the ChunkRef is then not
appended and `offset`/`chunk_idx` are not advanced. -/
def processChunk (c : Codec) (comp : CompressionType) (encrypt : Bool)
    (key : List Nat) (st : StoreState) (d : List Nat)
    (chunk_idx offset : Nat) : StoreState × Option ChunkInfo :=
  let h := c.sha d
  let ci : ChunkInfo :=
    { hash := h, offset := offset, size := d.length,
      chunk_index := chunk_idx, deduplicated := false }
  if st.db.chunk_exists h then
    (st, some { ci with deduplicated := true })
  else
    let final := encodePipeline c comp encrypt key d
    if encrypt ∧ final = [] then (st, none)
    else
      let path := ChunkStore.get_chunk_path h
      ({ db := st.db.store_chunk h path d.length final.length comp encrypt,
         disk := diskWrite st.disk path final }, some ci)

/-- The chunking loop of `ChunkStore::store_file` over all windows,
accumulating the manifest's ChunkRefs. -/
def storeChunks (c : Codec) (comp : CompressionType) (encrypt : Bool)
    (key : List Nat) :
    StoreState → List (List Nat) → Nat → Nat → StoreState × List ChunkInfo
  | st, [], _, _ => (st, [])
  | st, d :: rest, idx, off =>
    match processChunk c comp encrypt key st d idx off with
    | (st1, none) => storeChunks c comp encrypt key st1 rest idx off
    | (st1, some ci) =>
      let r := storeChunks c comp encrypt key st1 rest (idx + 1) (off + d.length)
      (r.1, ci :: r.2)

/-- `basename_of` from `chunk_store.h`: the path component after the last
slash. -/
def basename_of (path : String) : String :=
  match (path.splitOn "/").getLast? with
  | some s => s
  | none => path

/-- `ChunkStore::store_file`: hash the whole file, chunk it, dedup /
transform / store each chunk, then store the manifest.  The source file's
bytes and mtime are passed directly (`stat` and `ifstream` on an existing
readable file); the stat/open failure paths, which return an empty
manifest, are outside the verified claims. -/
def ChunkStore.store_file (c : Codec) (st : StoreState)
    (file_path : String) (comp : CompressionType) (encrypt : Bool)
    (key : List Nat) (job_id : Nat) (relative_path : String)
    (data : List Nat) (mtime : Nat) : StoreState × FileManifest :=
  let r := storeChunks c comp encrypt key st (chunkSplit data) 0 0
  let manifest : FileManifest :=
    { file_path := if relative_path = "" then file_path else relative_path,
      file_name := basename_of file_path,
      file_size := data.length, modified_time := mtime,
      file_hash := c.sha data, chunks := r.2 }
  let r2 := (r.1.db.store_file_manifest (fun _ => false) job_id manifest)
  ({ db := r2.2, disk := r.1.disk }, manifest)

/-- The per-chunk body of the restore loop in `ChunkStore::restore_file`:
look up the storage path, read the chunk file, decrypt, decompress, and
verify the per-chunk hash; `none` on any of the code's early `return
false` checks. -/
def restoreChunkData (c : Codec) (st : StoreState) (comp : CompressionType)
    (encrypted : Bool) (key : List Nat) (ch : ChunkInfo) : Option (List Nat) :=
  match st.db.get_chunk_path ch.hash with
  | none => none
  | some p =>
    match diskLookup st.disk p with
    | none => none
    | some raw =>
      let d1 := if encrypted then c.aesDecrypt key raw else raw
      if encrypted ∧ d1 = [] then none
      else
        let d2 := if comp ≠ CompressionType.NONE
          then Compressor.decompress c d1 ch.size comp else d1
        if comp ≠ CompressionType.NONE ∧ d2 = [] then none
        else if c.sha d2 = ch.hash then some d2 else none

/-- The restore loop of `ChunkStore::restore_file`: append each decoded
chunk to the destination file, stopping on the first failure; after the
last chunk, verify the whole-file hash.  The second component is the byte
content of the destination file when the function returns. -/
def restoreGo (c : Codec) (st : StoreState) (comp : CompressionType)
    (encrypted : Bool) (key : List Nat) (fileHash : Nat) :
    List ChunkInfo → List Nat → Bool × List Nat
  | [], out => if c.sha out = fileHash then (true, out) else (false, out)
  | ch :: rest, out =>
    match restoreChunkData c st comp encrypted key ch with
    | none => (false, out)
    | some d => restoreGo c st comp encrypted key fileHash rest (out ++ d)

/-- `ChunkStore::restore_file`: reassemble a file from its manifest,
returning the success flag and the bytes written to `dest_path`
(destination-directory creation and `ofstream` failure are environment
conditions outside the model). -/
def ChunkStore.restore_file (c : Codec) (st : StoreState) (m : FileManifest)
    (comp : CompressionType) (encrypted : Bool) (key : List Nat) :
    Bool × List Nat :=
  restoreGo c st comp encrypted key m.file_hash m.chunks []

/-- `RestoreEngine::RestoreResult` from `restore_engine.h`. -/
structure RestoreResult where
  success : Bool
  files_restored : Nat
  bytes_restored : Nat
  error : String
  restored_files : List String
deriving DecidableEq

/-- The per-manifest body of the restore loop in
`RestoreEngine::restore_job`: a failed file only sets the error field, a
restored file bumps the counters; either way the loop continues. -/
def restoreJobStep (c : Codec) (st : StoreState) (comp : CompressionType)
    (encrypt : Bool) (aes_key : List Nat) (dest_path : String)
    (r : RestoreResult) (m : FileManifest) : RestoreResult :=
  let target := dest_path ++ "/" ++ m.file_path
  if (ChunkStore.restore_file c st m comp encrypt aes_key).1 then
    { r with files_restored := r.files_restored + 1,
             bytes_restored := r.bytes_restored + m.file_size,
             restored_files := r.restored_files ++ [target] }
  else
    { r with error := "Failed to restore: " ++ m.file_name }

/-- `RestoreEngine::restore_job`: require an existing COMPLETED job, fetch
the per-job key when encrypted, then restore every manifest, counting
per-file outcomes; `success` is true when some file was restored or when
the job has no manifests.  The engine never writes to the metadata store. -/
def RestoreEngine.restore_job (c : Codec) (st : StoreState) (job_id : Nat)
    (dest_path : String) : RestoreResult :=
  match st.db.get_job job_id with
  | none =>
    { success := false, files_restored := 0, bytes_restored := 0,
      error := "Job not found: " ++ toString job_id, restored_files := [] }
  | some job =>
    if job.status ≠ JobStatus.COMPLETED then
      { success := false, files_restored := 0, bytes_restored := 0,
        error := "Job " ++ toString job_id ++ " is not completed",
        restored_files := [] }
    else
      match (if job.encrypt then st.db.get_encryption_key job_id else some []) with
      | none =>
        { success := false, files_restored := 0, bytes_restored := 0,
          error := "Encryption key not found for job " ++ toString job_id,
          restored_files := [] }
      | some aes_key =>
        let manifests := st.db.get_file_manifests job_id
        if manifests = [] then
          { success := true, files_restored := 0, bytes_restored := 0,
            error := "No files found in backup job " ++ toString job_id,
            restored_files := [] }
        else
          let r := manifests.foldl
            (restoreJobStep c st job.compression job.encrypt aes_key dest_path)
            { success := false, files_restored := 0, bytes_restored := 0,
              error := "", restored_files := [] }
          { r with success := r.files_restored > 0 }

/-- `RestoreEngine::verify_backup`: the job must exist and be COMPLETED;
every chunk of every manifest must have a `chunks` row whose
`storage_path` exists on disk (`stat` only; chunk contents are not read). -/
def RestoreEngine.verify_backup (st : StoreState) (job_id : Nat) : Bool :=
  match st.db.get_job job_id with
  | none => false
  | some job =>
    if job.status ≠ JobStatus.COMPLETED then false
    else (st.db.get_file_manifests job_id).all (fun m =>
      m.chunks.all (fun ch =>
        match st.db.get_chunk_meta ch.hash with
        | none => false
        | some meta => (diskLookup st.disk meta.storage_path).isSome))

/-- The dependency graph `DAG<int>` from `dag.h`: the adjacency map
`adj_`, an association from node to its successor set (kept as a
duplicate-free list).  The derived `in_degree_` bookkeeping, which no
verified operation observes, is elided. -/
structure DAGraph where
  adj : List (Nat × List Nat)
deriving DecidableEq

/-- The empty dependency graph. -/
def DAGraph.emptyG : DAGraph := { adj := [] }

/-- Successor set of a node (the `adj_` entry, or empty when absent). -/
def DAGraph.succs (g : DAGraph) (a : Nat) : List Nat :=
  match g.adj.find? (fun p => p.1 = a) with
  | none => []
  | some p => p.2

/-- `DAG::has_node`. -/
def DAGraph.has_node (g : DAGraph) (n : Nat) : Bool :=
  g.adj.any (fun p => p.1 = n)

/-- `DAG::add_node`: insert an empty adjacency entry when absent. -/
def DAGraph.add_node (g : DAGraph) (n : Nat) : DAGraph :=
  if g.has_node n then g else { adj := g.adj ++ [(n, [])] }

/-- Insertion into an `unordered_set` modelled on a duplicate-free list. -/
def insertSucc (l : List Nat) (b : Nat) : List Nat :=
  if b ∈ l then l else l ++ [b]

/-- Insert the edge `a → b` into the adjacency map (the
`adj_[from].insert(to)` step of `DAG::add_edge`). -/
def DAGraph.addEdgeRaw (g : DAGraph) (a b : Nat) : DAGraph :=
  { adj := g.adj.map (fun p => if p.1 = a then (p.1, insertSucc p.2 b) else p) }

/-- An edge of the graph. -/
def DAGraph.Edge (g : DAGraph) (a b : Nat) : Prop := b ∈ g.succs a

instance (g : DAGraph) (a b : Nat) : Decidable (g.Edge a b) := by
  unfold DAGraph.Edge; infer_instance

/-- A walk from `a` to `b` along the listed intermediate-and-final nodes. -/
def DAGraph.WalkL (g : DAGraph) : Nat → List Nat → Nat → Prop
  | a, [], b => a = b
  | a, x :: l, b => g.Edge a x ∧ g.WalkL x l b

/-- Graph reachability: some walk exists. -/
def DAGraph.Reach (g : DAGraph) (a b : Nat) : Prop := ∃ l, g.WalkL a l b

/-- Acyclicity: every walk from a node back to itself is trivial. -/
def DAGraph.Acyclic (g : DAGraph) : Prop :=
  ∀ a l, g.WalkL a l a → l = []

/-- The BFS of `DAG::has_path`: a work queue and a visited set; fuel makes
the recursion structural (`DAGraph.fuelBound` is enough fuel, see
`bfsAux_complete`). -/
def bfsAux (g : DAGraph) (t : Nat) : Nat → List Nat → List Nat → Bool
  | 0, _, _ => false
  | _ + 1, [], _ => false
  | fuel + 1, cur :: q, visited =>
    if cur = t then true
    else if cur ∈ visited then bfsAux g t fuel q visited
    else bfsAux g t fuel (q ++ g.succs cur) (cur :: visited)

/-- Fuel that always suffices for the BFS: one more than the total weight
of the adjacency map. -/
def DAGraph.fuelBound (g : DAGraph) : Nat :=
  1 + (g.adj.map (fun p => 1 + p.2.length)).sum

/-- `DAG::has_path`: BFS from `a` searching for `b`. -/
def DAGraph.has_path (g : DAGraph) (a b : Nat) : Bool :=
  bfsAux g b g.fuelBound [a] []

/-- `DAG::add_edge`: register both endpoints, then reject a self-loop or
an edge whose reverse is already reachable (which would close a cycle);
otherwise insert the edge. -/
def DAGraph.add_edge (g : DAGraph) (a b : Nat) : Bool × DAGraph :=
  let g1 := (g.add_node a).add_node b
  if a = b then (false, g1)
  else if g1.has_path b a then (false, g1)
  else (true, g1.addEdgeRaw a b)

/-- `DAG::remove_edge`. -/
def DAGraph.remove_edge (g : DAGraph) (a b : Nat) : Bool × DAGraph :=
  match g.adj.find? (fun p => p.1 = a) with
  | none => (false, g)
  | some p =>
    if b ∈ p.2 then
      (true, { adj := g.adj.map (fun q =>
        if q.1 = a then (q.1, q.2.erase b) else q) })
    else (false, g)

/-- `DAG::remove_node`: delete the node from every successor set and drop
its own adjacency entry. -/
def DAGraph.remove_node (g : DAGraph) (n : Nat) : DAGraph :=
  { adj := (g.adj.filter (fun p => ¬ p.1 = n)).map
      (fun p => (p.1, p.2.erase n)) }

/-- `DAG::get_dependents`: the successor set of a node. -/
def DAGraph.get_dependents (g : DAGraph) (n : Nat) : List Nat := g.succs n

/-- The graphs produced by any sequence of `DAG` mutations starting from
the empty graph. -/
inductive DAGReached : DAGraph → Prop
  | empty : DAGReached DAGraph.emptyG
  | add_node (g : DAGraph) (n : Nat) : DAGReached g → DAGReached (g.add_node n)
  | add_edge (g : DAGraph) (a b : Nat) : DAGReached g → DAGReached (g.add_edge a b).2
  | remove_edge (g : DAGraph) (a b : Nat) : DAGReached g → DAGReached (g.remove_edge a b).2
  | remove_node (g : DAGraph) (n : Nat) : DAGReached g → DAGReached (g.remove_node n)

/-- A priority-queue entry of the scheduler (`JobScheduler::JobEntry`). -/
structure JobEntry where
  job_id : Nat
  priority : Nat
  created_at : Nat
deriving DecidableEq

/-- The in-memory state of `JobScheduler`: the shared metadata store, the
priority queue (as its entry multiset), the dependency DAG and the
in-progress set. -/
structure JobScheduler where
  db : Database
  pq : List JobEntry
  dep_graph : DAGraph
  in_progress : List Nat
deriving DecidableEq

/-- `JobScheduler::mark_failed`: persist FAILED for the job, walk its
direct dependents persisting CANCELLED with the dependency message, then
remove the node from the DAG, the in-progress set and the priority queue. -/
def JobScheduler.mark_failed (s : JobScheduler) (job_id : Nat) : JobScheduler :=
  let db1 := s.db.update_job_status job_id JobStatus.FAILED "Worker process failed"
  let dependents := s.dep_graph.get_dependents job_id
  let db2 := dependents.foldl (fun d dep =>
    d.update_job_status dep JobStatus.CANCELLED
      ("Dependency job " ++ toString job_id ++ " failed")) db1
  { db := db2,
    pq := s.pq.filter (fun e => ¬ e.job_id = job_id),
    dep_graph := s.dep_graph.remove_node job_id,
    in_progress := s.in_progress.erase job_id }

/-- The compression stage of the transform pipeline, with the code's
fallback to the raw bytes on compression failure. -/
def processedOf (c : Codec) (comp : CompressionType) (d : List Nat) : List Nat :=
  if comp ≠ CompressionType.NONE then
    let p := Compressor.compress c d comp
    if p = [] then d else p
  else d

/-- The portion of the chunk-store invariant carried by a single `chunks`
row: its storage path is the content address of its hash, and the disk
holds, at that path, the encoded form of pre-image bytes of the hash. -/
def ChunkRecordOK (c : Codec) (comp : CompressionType) (enc : Bool)
    (key : List Nat) (disk : Disk) (r : ChunkRecord) : Prop :=
  r.storage_path = r.hash ∧
  ∃ d, d ≠ [] ∧ c.sha d = r.hash ∧ r.original_size = d.length ∧
    diskLookup disk r.storage_path = some (encodePipeline c comp enc key d)

/-- The chunk-store invariant: every chunk record decodes, under the given
settings, back to bytes whose hash is the record's hash. -/
def StoreInv (c : Codec) (comp : CompressionType) (enc : Bool)
    (key : List Nat) (st : StoreState) : Prop :=
  ∀ r ∈ st.db.chunks, ChunkRecordOK c comp enc key st.disk r

/-- The `file_chunks` rows that persisting a manifest inserts. -/
def chunkRowsFor (mid : Nat) (chs : List ChunkInfo) : List FileChunkRow :=
  chs.map (fun ch =>
    FileChunkRow.mk mid ch.hash ch.chunk_index ch.offset ch.size ch.deduplicated)

/-- Two manifests that are identical except for the `deduplicated` flags
on their chunks. -/
def EqModDedup (m1 m2 : FileManifest) : Prop :=
  m1.file_path = m2.file_path ∧ m1.file_name = m2.file_name ∧
  m1.file_size = m2.file_size ∧ m1.modified_time = m2.modified_time ∧
  m1.file_hash = m2.file_hash ∧
  List.Forall₂ (fun a b : ChunkInfo => a.hash = b.hash ∧ a.offset = b.offset ∧
    a.size = b.size ∧ a.chunk_index = b.chunk_index) m1.chunks m2.chunks

/-- Default chunk descriptor (used only as the `getD` default in
statements about manifest shape). -/
def ciDefault : ChunkInfo :=
  { hash := 0, offset := 0, size := 0, chunk_index := 0, deduplicated := false }

/-- An injective encoding of byte strings as naturals, used to instantiate
the abstract hash in concrete witnesses. -/
def listEncode : List Nat → Nat
  | [] => 0
  | a :: l => Nat.pair a (listEncode l) + 1

/-- A concrete `Codec` used by the witnesses: the hash is an injective
encoding, compression tags its input, and encryption prepends a marker
(playing the IV's role). -/
def wCodec : Codec :=
  { sha := listEncode,
    lz4Compress := fun d => 0 :: d,
    lz4Decompress := fun d _ => d.tail,
    zstdCompress := fun d => 1 :: d,
    zstdDecompress := fun d _ => d.tail,
    aesEncrypt := fun _ d => 2 :: d,
    aesDecrypt := fun _ d => d.tail }

/-- Termination measure of the BFS in `DAG::has_path`: the total weight of
the adjacency entries whose node has not been visited yet. -/
def DAGraph.weight (g : DAGraph) (V : List Nat) : Nat :=
  ((g.adj.filter (fun p => ¬ p.1 ∈ V)).map (fun p => 1 + p.2.length)).sum

/-- The store state after backing up the same one-byte file content `[7]`
twice, under jobs 1 and 2: the second backup takes the deduplicated
branch. -/
def dedupTwiceState : StoreState :=
  (ChunkStore.store_file wCodec
    (ChunkStore.store_file wCodec emptyStoreState "f" CompressionType.NONE
      false [] 1 "" [7] 0).1
    "g" CompressionType.NONE false [] 2 "" [7] 0).1

/-- A minimal job row for the scheduler scenarios. -/
def jobC5 (i : Nat) (st : JobStatus) : BackupJob :=
  { job_id := i, source_path := "s", backup_name := "b", status := st,
    priority := 0, compression := CompressionType.NONE, encrypt := false,
    error_message := "" }

/-- A metadata store holding job 1 RUNNING and jobs 2 and 3 PENDING. -/
def dbC5 : Database :=
  { jobs := [jobC5 1 JobStatus.RUNNING, jobC5 2 JobStatus.PENDING, jobC5 3 JobStatus.PENDING],
    chunks := [], manifests := [], file_chunks := [],
    encryption_keys := [], next_manifest_id := 0 }

/-- A scheduler over `dbC5` with job 2 depending on job 1 (edge 1 → 2 in
the dependency DAG) and job 1 in progress. -/
def schedC5 : JobScheduler :=
  { db := dbC5,
    pq := [],
    dep_graph := (DAGraph.emptyG.add_edge 1 2).2,
    in_progress := [1] }

/-- The fuel of `chunkSplitGo` is irrelevant as long as it bounds the byte
count: every loop iteration consumes at least one byte. -/
theorem chunkSplitGo_fuel : ∀ (f : Nat) (l : List Nat), l.length ≤ f →
    chunkSplitGo f l = chunkSplit l := by
  intro f
  induction f using Nat.strong_induction_on with
  | _ f ih =>
    intro l hl
    cases l with
    | nil =>
      cases f with
      | zero => rfl
      | succ g => rfl
    | cons x xs =>
      cases f with
      | zero => simp at hl
      | succ g =>
        have h1 : chunkSplitGo (g + 1) (x :: xs)
            = (x :: xs).take CHUNK_SIZE
              :: chunkSplitGo g ((x :: xs).drop CHUNK_SIZE) := rfl
        have h2 : chunkSplit (x :: xs)
            = (x :: xs).take CHUNK_SIZE
              :: chunkSplitGo xs.length ((x :: xs).drop CHUNK_SIZE) := rfl
        rw [h1, h2]
        simp only [List.length_cons] at hl
        have hd : ((x :: xs).drop CHUNK_SIZE).length ≤ g := by
          simp only [List.length_drop, List.length_cons, CHUNK_SIZE]
          omega
        have hd2 : ((x :: xs).drop CHUNK_SIZE).length ≤ xs.length := by
          simp only [List.length_drop, List.length_cons, CHUNK_SIZE]
          omega
        rw [ih g (by omega) _ hd, ih xs.length (by omega) _ hd2]

/-- Splitting the empty byte string yields no chunks. -/
theorem chunkSplit_nil : chunkSplit [] = [] := rfl

/-- Unfolding lemma for `chunkSplit` on a nonempty byte string. -/
theorem chunkSplit_cons (l : List Nat) (h : l ≠ []) :
    chunkSplit l = l.take CHUNK_SIZE :: chunkSplit (l.drop CHUNK_SIZE) := by
  cases l with
  | nil => exact absurd rfl h
  | cons x xs =>
    have h1 : chunkSplit (x :: xs)
        = (x :: xs).take CHUNK_SIZE
          :: chunkSplitGo xs.length ((x :: xs).drop CHUNK_SIZE) := rfl
    rw [h1, chunkSplitGo_fuel xs.length _ ?_]
    simp only [List.length_drop, List.length_cons, CHUNK_SIZE]
    omega

/-- Induction along the iterations of the read loop: the empty file, and a
nonempty file assuming the property after dropping one window. -/
theorem chunkSplit_rec (P : List Nat → Prop)
    (case1 : P [])
    (case2 : ∀ l, l ≠ [] → P (List.drop CHUNK_SIZE l) → P l)
    (l : List Nat) : P l := by
  have key : ∀ (n : Nat) (l : List Nat), l.length ≤ n → P l := by
    intro n
    induction n with
    | zero =>
      intro l hl
      have h0 : l = [] := List.eq_nil_of_length_eq_zero (Nat.le_zero.mp hl)
      rw [h0]
      exact case1
    | succ n ih =>
      intro l hl
      by_cases h : l = []
      · rw [h]
        exact case1
      · refine case2 l h (ih _ ?_)
        have hp : 0 < l.length := List.length_pos.mpr h
        simp only [List.length_drop, CHUNK_SIZE]
        omega
  exact key l.length l le_rfl

/-- Concatenating the chunks reproduces the file's bytes. -/
theorem chunkSplit_flatten (l : List Nat) : (chunkSplit l).flatten = l := by
  induction l using chunkSplit_rec with
  | case1 => simp [chunkSplit_nil]
  | case2 l h ih =>
    rw [chunkSplit_cons l h]
    simp [ih]

/-- Every chunk produced by the read loop is nonempty (the loop exits on a
zero-byte read). -/
theorem chunkSplit_mem_ne_nil (l d : List Nat) (hd : d ∈ chunkSplit l) :
    d ≠ [] := by
  induction l using chunkSplit_rec with
  | case1 => rw [chunkSplit_nil] at hd; cases hd
  | case2 l h ih =>
    rw [chunkSplit_cons l h] at hd
    rcases List.mem_cons.mp hd with h1 | h1
    · subst h1
      have hCS : CHUNK_SIZE ≠ 0 := by decide
      simp [List.take_eq_nil_iff, h, hCS]
    · exact ih h1

/-- Arithmetic step for the chunk count: peeling one full window off a
nonempty file preserves the ceiling-division formula. -/
theorem ceil_div_step (N k : Nat) (hN : 0 < N) (hk : 0 < k) :
    (N - k + k - 1) / k + 1 = (N + k - 1) / k := by
  rcases le_or_lt N k with hle | hlt
  · have h2 : N - k = 0 := Nat.sub_eq_zero_of_le hle
    rw [h2]
    have h3 : (0 + k - 1) / k = 0 := Nat.div_eq_of_lt (by omega)
    have h4 : (N + k - 1) / k = 1 := Nat.div_eq_of_lt_le (by omega) (by omega)
    omega
  · have h2 : N - k + k - 1 = N - 1 := by omega
    have h3 : N + k - 1 = (N - 1) + k := by omega
    rw [h2, h3, Nat.add_div_right _ hk]

/-- The read loop produces exactly `ceil(N / CHUNK_SIZE)` chunks. -/
theorem chunkSplit_length (l : List Nat) :
    (chunkSplit l).length = (l.length + CHUNK_SIZE - 1) / CHUNK_SIZE := by
  induction l using chunkSplit_rec with
  | case1 =>
    rw [chunkSplit_nil]
    decide
  | case2 l h ih =>
    rw [chunkSplit_cons l h]
    simp only [List.length_cons, ih, List.length_drop]
    exact ceil_div_step l.length CHUNK_SIZE (List.length_pos.mpr h) (by decide)

/-- Every chunk except the last has exactly `CHUNK_SIZE` bytes. -/
theorem chunkSplit_getD_length (l : List Nat) (i : Nat)
    (h : i + 1 < (chunkSplit l).length) :
    ((chunkSplit l).getD i []).length = CHUNK_SIZE := by
  induction l using chunkSplit_rec generalizing i with
  | case1 => rw [chunkSplit_nil] at h; simp at h
  | case2 l hne ih =>
    rw [chunkSplit_cons l hne] at h ⊢
    cases i with
    | zero =>
      simp only [List.getD_cons_zero, List.length_take]
      have hd : l.drop CHUNK_SIZE ≠ [] := by
        intro hc
        rw [hc, chunkSplit_nil] at h
        simp at h
      have hlt : CHUNK_SIZE < l.length := by
        by_contra hc
        push_neg at hc
        exact hd (List.drop_eq_nil_of_le hc)
      omega
    | succ j =>
      simp only [List.getD_cons_succ]
      apply ih
      simpa using h

/-- Helper: `getLast?` skips the head of a list with a nonempty tail. -/
theorem getLast?_cons_ne (x : List Nat) (l : List (List Nat))
    (h : l ≠ []) : (x :: l).getLast? = l.getLast? := by
  cases l with
  | nil => exact absurd rfl h
  | cons b t => exact List.getLast?_cons_cons

/-- The last chunk carries the remaining `N - CHUNK_SIZE * (count - 1)`
bytes. -/
theorem chunkSplit_last (l : List Nat) (h : l ≠ []) :
    ∃ d, (chunkSplit l).getLast? = some d ∧
      d.length = l.length - CHUNK_SIZE * ((chunkSplit l).length - 1) := by
  induction l using chunkSplit_rec with
  | case1 => exact absurd rfl h
  | case2 l hne ih =>
    by_cases hd : l.drop CHUNK_SIZE = []
    · refine ⟨l.take CHUNK_SIZE, ?_, ?_⟩
      · rw [chunkSplit_cons l hne, hd, chunkSplit_nil]
        rfl
      · have hle : l.length ≤ CHUNK_SIZE := by
          by_contra hc
          push_neg at hc
          have : l.drop CHUNK_SIZE ≠ [] := by
            intro hc2
            have := congrArg List.length hc2
            simp at this
            omega
          exact this hd
        rw [chunkSplit_cons l hne, hd, chunkSplit_nil]
        simp [List.length_take]
        omega
    · obtain ⟨d, hd1, hd2⟩ := ih hd
      refine ⟨d, ?_, ?_⟩
      · rw [chunkSplit_cons l hne]
        have hcs : chunkSplit (l.drop CHUNK_SIZE) ≠ [] := by
          rw [chunkSplit_cons _ hd]
          simp
        rw [getLast?_cons_ne _ _ hcs]
        exact hd1
      · have hgt : CHUNK_SIZE < l.length := by
          by_contra hc
          push_neg at hc
          exact hd (List.drop_eq_nil_of_le hc)
        rw [chunkSplit_cons l hne]
        simp only [List.length_cons]
        rw [hd2, List.length_drop]
        have hm : 1 ≤ (chunkSplit (l.drop CHUNK_SIZE)).length := by
          rw [chunkSplit_cons _ hd]
          simp
        set m := (chunkSplit (l.drop CHUNK_SIZE)).length with hmdef
        have hCS : CHUNK_SIZE = 65536 := by decide
        rw [hCS] at *
        omega

/-- The chunk lengths sum to the file's byte count. -/
theorem chunkSplit_sum_length (l : List Nat) :
    ((chunkSplit l).map List.length).sum = l.length := by
  have h := congrArg List.length (chunkSplit_flatten l)
  rwa [List.length_flatten] at h

/-- Reading back a freshly written chunk file yields the written bytes. -/
theorem diskLookup_write_self (disk : Disk) (p : Nat) (e : List Nat) :
    diskLookup (diskWrite disk p e) p = some e := by
  simp [diskLookup, diskWrite, List.find?]

/-- Writing a chunk file does not disturb reads at other paths. -/
theorem diskLookup_write_ne (disk : Disk) (p p2 : Nat) (e : List Nat)
    (hne : ¬ p2 = p) : diskLookup (diskWrite disk p e) p2 = diskLookup disk p2 := by
  have hne2 : ¬ p = p2 := fun hc => hne hc.symm
  simp [diskLookup, diskWrite, List.find?, hne2]

/-- When `chunk_exists` holds, the lookup used by the restore path finds a
record with that hash. -/
theorem chunk_exists_find (db : Database) (h : Nat)
    (hex : db.chunk_exists h = true) :
    ∃ r, db.chunks.find? (fun q => q.hash = h) = some r ∧ r.hash = h := by
  unfold Database.chunk_exists at hex
  rw [List.any_eq_true] at hex
  obtain ⟨r, hr, hrh⟩ := hex
  have hs : (db.chunks.find? (fun q => q.hash = h)).isSome := by
    rw [List.find?_isSome]
    exact ⟨r, hr, hrh⟩
  obtain ⟨r2, hr2⟩ := Option.isSome_iff_exists.mp hs
  refine ⟨r2, hr2, ?_⟩
  have := List.find?_some hr2
  simpa using this

/-- When no record carries the hash, `chunk_exists` is false for it. -/
theorem chunk_exists_false_hashes (db : Database) (h : Nat)
    (hex : ¬ db.chunk_exists h = true) :
    ∀ r ∈ db.chunks, ¬ r.hash = h := by
  intro r hr hc
  exact hex (by unfold Database.chunk_exists; rw [List.any_eq_true]; exact ⟨r, hr, by simp [hc]⟩)

/-- Fields of the ChunkRef produced by one loop iteration. -/
theorem processChunk_fields (c : Codec) (comp : CompressionType) (enc : Bool)
    (key : List Nat) (st : StoreState) (d : List Nat) (idx off : Nat)
    (st2 : StoreState) (ci : ChunkInfo)
    (h : processChunk c comp enc key st d idx off = (st2, some ci)) :
    ci.hash = c.sha d ∧ ci.size = d.length ∧ ci.chunk_index = idx ∧
      ci.offset = off := by
  unfold processChunk at h
  dsimp only at h
  split at h
  · rw [Prod.mk.injEq] at h
    obtain ⟨-, h2⟩ := h
    injection h2 with h2
    subst h2
    exact ⟨rfl, rfl, rfl, rfl⟩
  · split at h
    · rw [Prod.mk.injEq] at h
      exact absurd h.2 (by simp)
    · rw [Prod.mk.injEq] at h
      obtain ⟨-, h2⟩ := h
      injection h2 with h2
      subst h2
      exact ⟨rfl, rfl, rfl, rfl⟩

/-- When encryption cannot fail, no loop iteration is skipped. -/
theorem processChunk_some (c : Codec) (comp : CompressionType) (enc : Bool)
    (key : List Nat) (st : StoreState) (d : List Nat) (idx off : Nat)
    (henc : ∀ k x, c.aesEncrypt k x ≠ []) :
    ∃ st2 ci, processChunk c comp enc key st d idx off = (st2, some ci) := by
  unfold processChunk
  dsimp only
  split
  · exact ⟨st, _, rfl⟩
  · split
    · rename_i hcond
      exfalso
      rcases hcond with ⟨hl, hr⟩
      subst hl
      unfold encodePipeline at hr
      simp only [if_true] at hr
      exact henc key _ hr
    · exact ⟨_, _, rfl⟩

/-- In the non-dedup branch, `store_chunk` appends a fresh record with
`ref_count = 1`. -/
theorem store_chunk_chunks_insert (db : Database) (h path orig stored : Nat)
    (comp : CompressionType) (enc : Bool) (hex : ¬ db.chunk_exists h = true) :
    (db.store_chunk h path orig stored comp enc).chunks
      = db.chunks ++ [ChunkRecord.mk h path orig stored comp enc 1] := by
  have hex2 : ¬ (db.chunks.any (fun r => r.hash = h) = true) := hex
  unfold Database.store_chunk
  rw [if_neg hex2]

/-- One loop iteration preserves the chunk-store invariant, never removes
a chunk record, and leaves any produced ChunkRef's record present. -/
theorem processChunk_preserves (c : Codec) (hc : GoodCodec c)
    (comp : CompressionType) (enc : Bool) (key : List Nat) (st : StoreState)
    (d : List Nat) (idx off : Nat) (hinv : StoreInv c comp enc key st)
    (hd : d ≠ []) :
    StoreInv c comp enc key (processChunk c comp enc key st d idx off).1 ∧
    (∀ h2, st.db.chunk_exists h2 = true →
      ((processChunk c comp enc key st d idx off).1).db.chunk_exists h2 = true) ∧
    (∀ ci, (processChunk c comp enc key st d idx off).2 = some ci →
      ((processChunk c comp enc key st d idx off).1).db.chunk_exists ci.hash = true) := by
  unfold processChunk
  dsimp only
  by_cases hex : st.db.chunk_exists (c.sha d) = true
  · rw [if_pos hex]
    refine ⟨hinv, fun h2 hh => hh, ?_⟩
    intro ci hci
    injection hci with hci
    subst hci
    exact hex
  · rw [if_neg hex]
    have hfin : ¬ (enc = true ∧ encodePipeline c comp enc key d = []) := by
      rintro ⟨he, hfe⟩
      subst he
      unfold encodePipeline at hfe
      simp only [if_true] at hfe
      exact hc.enc_ne key _ hfe
    rw [if_neg hfin]
    have hins := store_chunk_chunks_insert st.db (c.sha d)
      (ChunkStore.get_chunk_path (c.sha d)) d.length
      (encodePipeline c comp enc key d).length comp enc hex
    refine ⟨?_, ?_, ?_⟩
    · intro r hr
      rw [hins] at hr
      rcases List.mem_append.mp hr with hold | hnew
      · obtain ⟨hpath, d0, hne0, hsha0, horig0, hdisk0⟩ := hinv r hold
        refine ⟨hpath, d0, hne0, hsha0, horig0, ?_⟩
        have hrh : ¬ r.hash = c.sha d := chunk_exists_false_hashes st.db _ hex r hold
        have hpp : ¬ r.storage_path = ChunkStore.get_chunk_path (c.sha d) := by
          rw [hpath]
          exact hrh
        rw [diskLookup_write_ne st.disk _ _ _ hpp]
        exact hdisk0
      · have hr0 : r = ChunkRecord.mk (c.sha d)
            (ChunkStore.get_chunk_path (c.sha d)) d.length
            (encodePipeline c comp enc key d).length comp enc 1 := by
          simpa using hnew
        subst hr0
        refine ⟨rfl, d, hd, rfl, rfl, ?_⟩
        exact diskLookup_write_self st.disk _ _
    · intro h2 hh
      unfold Database.chunk_exists at hh ⊢
      rw [hins, List.any_append, hh]
      rfl
    · intro ci hci
      injection hci with hci
      subst hci
      unfold Database.chunk_exists
      rw [hins, List.any_append]
      simp

/-- The chunking loop preserves the store invariant, never removes chunk
records, and produces ChunkRefs matching the windows one-for-one, each
with its record present in the final database. -/
theorem storeChunks_spec (c : Codec) (hc : GoodCodec c) (comp : CompressionType)
    (enc : Bool) (key : List Nat) :
    ∀ (ds : List (List Nat)) (st : StoreState) (idx off : Nat),
    StoreInv c comp enc key st → (∀ d ∈ ds, d ≠ []) →
    StoreInv c comp enc key (storeChunks c comp enc key st ds idx off).1 ∧
    (∀ h2, st.db.chunk_exists h2 = true →
      (storeChunks c comp enc key st ds idx off).1.db.chunk_exists h2 = true) ∧
    List.Forall₂ (fun d ci => ci.hash = c.sha d ∧ ci.size = d.length ∧
      (storeChunks c comp enc key st ds idx off).1.db.chunk_exists ci.hash = true)
      ds (storeChunks c comp enc key st ds idx off).2 := by
  intro ds
  induction ds with
  | nil =>
    intro st idx off hinv hne
    exact ⟨hinv, fun h2 hh => hh, List.Forall₂.nil⟩
  | cons d rest ih =>
    intro st idx off hinv hne
    obtain ⟨st1, ci, hpc⟩ := processChunk_some c comp enc key st d idx off hc.enc_ne
    have hpres := processChunk_preserves c hc comp enc key st d idx off hinv
      (hne d (by simp))
    rw [hpc] at hpres
    have hfields := processChunk_fields c comp enc key st d idx off st1 ci hpc
    have hstep : storeChunks c comp enc key st (d :: rest) idx off
        = ((storeChunks c comp enc key st1 rest (idx + 1) (off + d.length)).1,
           ci :: (storeChunks c comp enc key st1 rest (idx + 1) (off + d.length)).2) := by
      simp only [storeChunks, hpc]
    have hrest := ih st1 (idx + 1) (off + d.length) hpres.1
      (fun x hx => hne x (by simp [hx]))
    rw [hstep]
    refine ⟨hrest.1, ?_, ?_⟩
    · intro h2 hh
      exact hrest.2.1 h2 (hpres.2.1 h2 hh)
    · refine List.Forall₂.cons ⟨hfields.1, hfields.2.1, ?_⟩ hrest.2.2
      exact hrest.2.1 ci.hash (hpres.2.2 ci rfl)

/-- The encode pipeline factors through the compression stage. -/
theorem encodePipeline_eq (c : Codec) (comp : CompressionType) (enc : Bool)
    (key : List Nat) (d : List Nat) :
    encodePipeline c comp enc key d
      = if enc then c.aesEncrypt key (processedOf c comp d)
        else processedOf c comp d := rfl

/-- The compression stage never produces an empty output for nonempty
input (on failure it falls back to the input itself). -/
theorem processedOf_ne (c : Codec) (comp : CompressionType) (d : List Nat)
    (hd : d ≠ []) : processedOf c comp d ≠ [] := by
  unfold processedOf
  split
  · dsimp only
    split
    · exact hd
    · assumption
  · exact hd

/-- With a good codec, decompression undoes the compression stage. -/
theorem processedOf_decompress (c : Codec) (hc : GoodCodec c)
    (comp : CompressionType) (d : List Nat)
    (hcomp : comp ≠ CompressionType.NONE) :
    Compressor.decompress c (processedOf c comp d) d.length comp = d := by
  unfold processedOf
  rw [if_pos hcomp]
  cases comp with
  | NONE => exact absurd rfl hcomp
  | LZ4 =>
    simp only [Compressor.compress, Compressor.decompress]
    rw [if_neg (hc.lz4_ne d)]
    exact hc.lz4_rt d
  | ZSTD =>
    simp only [Compressor.compress, Compressor.decompress]
    rw [if_neg (hc.zstd_ne d)]
    exact hc.zstd_rt d

/-- Under the chunk-store invariant, restoring a chunk whose record is
present yields exactly the original bytes: decrypt and decompress undo
the stored encoding, and the per-chunk integrity check passes. -/
theorem restoreChunkData_eq (c : Codec) (hc : GoodCodec c)
    (comp : CompressionType) (enc : Bool) (key : List Nat) (st : StoreState)
    (hinv : StoreInv c comp enc key st) (ch : ChunkInfo) (d : List Nat)
    (hd : d ≠ []) (hh : ch.hash = c.sha d) (hs : ch.size = d.length)
    (hex : st.db.chunk_exists ch.hash = true) :
    restoreChunkData c st comp enc key ch = some d := by
  obtain ⟨r, hfind, hrh⟩ := chunk_exists_find st.db ch.hash hex
  have hmem : r ∈ st.db.chunks := List.mem_of_find?_eq_some hfind
  obtain ⟨hpath, d0, hne0, hsha0, horig0, hdisk0⟩ := hinv r hmem
  have hd0 : d0 = d := hc.sha_inj d0 d (by rw [hsha0, hrh, hh])
  rw [hd0] at hdisk0
  have hgcp : st.db.get_chunk_path ch.hash = some r.storage_path := by
    unfold Database.get_chunk_path
    rw [hfind]
    rfl
  have hdec : (if enc then c.aesDecrypt key (encodePipeline c comp enc key d)
      else encodePipeline c comp enc key d) = processedOf c comp d := by
    rw [encodePipeline_eq]
    cases enc with
    | false => simp
    | true =>
      simp only [if_true]
      exact hc.enc_rt key (processedOf c comp d)
  have hpne : processedOf c comp d ≠ [] := processedOf_ne c comp d hd
  unfold restoreChunkData
  rw [hgcp]
  dsimp only
  rw [hdisk0]
  dsimp only
  rw [hdec]
  by_cases hcomp : comp = CompressionType.NONE
  · subst hcomp
    have hpd : processedOf c CompressionType.NONE d = d := by
      unfold processedOf
      simp
    rw [hpd]
    simp [hd, hh]
  · have hdecomp := processedOf_decompress c hc comp d hcomp
    rw [hs, hdecomp]
    have he1 : ¬ (enc = true ∧ processedOf c comp d = []) := by
      rintro ⟨-, hc2⟩
      exact hpne hc2
    rw [if_neg he1]
    simp [hcomp, hd, hh]

/-- The restore loop reassembles exactly the concatenation of the chunks
it was given descriptors for, and then applies the whole-file check. -/
theorem restoreGo_correct (c : Codec) (hc : GoodCodec c)
    (comp : CompressionType) (enc : Bool) (key : List Nat) (st : StoreState)
    (hinv : StoreInv c comp enc key st) (fh : Nat)
    (ds : List (List Nat)) (cis : List ChunkInfo)
    (hfor : List.Forall₂ (fun d ci => ci.hash = c.sha d ∧ ci.size = d.length ∧
      st.db.chunk_exists ci.hash = true) ds cis)
    (hne : ∀ d ∈ ds, d ≠ []) :
    ∀ out, restoreGo c st comp enc key fh cis out
      = (if c.sha (out ++ ds.flatten) = fh then (true, out ++ ds.flatten)
         else (false, out ++ ds.flatten)) := by
  induction hfor with
  | nil =>
    intro out
    simp [restoreGo]
  | @cons d ci ds2 cis2 h1 h2 ih =>
    intro out
    have hrcd : restoreChunkData c st comp enc key ci = some d :=
      restoreChunkData_eq c hc comp enc key st hinv ci d (hne d (by simp))
        h1.1.symm.symm h1.2.1.symm.symm h1.2.2
    simp only [restoreGo, hrcd]
    rw [ih (fun x hx => hne x (by simp [hx])) (out ++ d)]
    simp [List.append_assoc]

/-- The chunk-row insert loop of `store_file_manifest` only ever appends
the corresponding `file_chunks` rows. -/
theorem storeChunkRowsGo_some_eq (fail : Nat → Bool) (mid : Nat) :
    ∀ (chs : List ChunkInfo) (step : Nat) (db db2 : Database),
    storeChunkRowsGo fail mid step chs db = some db2 →
    db2 = { db with file_chunks := db.file_chunks ++ chunkRowsFor mid chs } := by
  intro chs
  induction chs with
  | nil =>
    intro step db db2 h
    unfold storeChunkRowsGo at h
    injection h with h
    subst h
    simp [chunkRowsFor]
  | cons ch rest ih =>
    intro step db db2 h
    unfold storeChunkRowsGo at h
    by_cases hf : fail step = true
    · rw [if_pos hf] at h
      cases h
    · rw [if_neg hf] at h
      have h2 := ih (step + 1) _ db2 h
      rw [h2]
      simp [chunkRowsFor]

/-- With no statement failures, the chunk-row insert loop appends all the
rows and succeeds. -/
theorem storeChunkRowsGo_noFail (mid : Nat) :
    ∀ (chs : List ChunkInfo) (step : Nat) (db : Database),
    storeChunkRowsGo (fun _ => false) mid step chs db
      = some { db with file_chunks := db.file_chunks ++ chunkRowsFor mid chs } := by
  intro chs
  induction chs with
  | nil =>
    intro step db
    unfold storeChunkRowsGo
    simp [chunkRowsFor]
  | cons ch rest ih =>
    intro step db
    unfold storeChunkRowsGo
    simp only [Bool.false_eq_true, if_false]
    rw [ih (step + 1)]
    simp [chunkRowsFor]

/-- With no statement failures, `store_file_manifest` commits the header
row and all chunk rows. -/
theorem store_file_manifest_noFail (db : Database) (job_id : Nat)
    (m : FileManifest) :
    db.store_file_manifest (fun _ => false) job_id m
      = (true, { db with
          manifests := db.manifests ++ [ManifestRow.mk db.next_manifest_id
            job_id m.file_path m.file_name m.file_size m.modified_time
            m.file_hash],
          file_chunks := db.file_chunks
            ++ chunkRowsFor db.next_manifest_id m.chunks,
          next_manifest_id := db.next_manifest_id + 1 }) := by
  unfold Database.store_file_manifest
  simp only [Bool.false_eq_true, if_false]
  rw [storeChunkRowsGo_noFail]

/-- The store invariant only depends on the `chunks` table and the disk. -/
theorem StoreInv_of_chunks_eq (c : Codec) (comp : CompressionType)
    (enc : Bool) (key : List Nat) (db1 db2 : Database) (disk : Disk)
    (h : db2.chunks = db1.chunks)
    (hinv : StoreInv c comp enc key { db := db1, disk := disk }) :
    StoreInv c comp enc key { db := db2, disk := disk } := by
  intro r hr
  rw [h] at hr
  exact hinv r hr

/-- C1: Round-trip.  For every file content and every setting of
(compression, encrypt, key), restoring the FileManifest produced by
`store_file` via `restore_file` with the same settings writes a
destination file whose bytes equal the original bytes, and `restore_file`
returns true.  Hypotheses: the external primitives behave (collision-free
hash, compression and encryption round-trips — `GoodCodec`), and the
pre-existing store contents were written with the same settings
(`StoreInv`), which is what cross-job deduplication requires. -/
theorem spec_C1_store_restore_roundtrip (c : Codec) (hc : GoodCodec c)
    (comp : CompressionType) (encrypt : Bool) (key : List Nat)
    (st : StoreState) (hinv : StoreInv c comp encrypt key st)
    (fp rp : String) (data : List Nat) (mtime job_id : Nat) :
    ChunkStore.restore_file c
      (ChunkStore.store_file c st fp comp encrypt key job_id rp data mtime).1
      (ChunkStore.store_file c st fp comp encrypt key job_id rp data mtime).2
      comp encrypt key = (true, data) := by
  obtain ⟨hinv2, hmono, hfor⟩ := storeChunks_spec c hc comp encrypt key
    (chunkSplit data) st 0 0 hinv (fun d hd => chunkSplit_mem_ne_nil data d hd)
  unfold ChunkStore.store_file
  dsimp only
  rw [store_file_manifest_noFail]
  dsimp only
  unfold ChunkStore.restore_file
  dsimp only
  rw [restoreGo_correct c hc comp encrypt key _ ?hinvx (c.sha data)
    (chunkSplit data) _ ?hforx ?hnex []]
  case hinvx =>
    exact fun r hr => hinv2 r hr
  case hforx =>
    exact hfor
  case hnex =>
    exact fun d hd => chunkSplit_mem_ne_nil data d hd
  simp [chunkSplit_flatten]

/-- The chunking loop, when no iteration is skipped (encryption cannot
fail), numbers the produced ChunkRefs consecutively from the starting
index, records each window's byte count as its size, and accumulates
offsets as the running sum of the preceding windows. -/
theorem storeChunks_shape (c : Codec) (comp : CompressionType) (enc : Bool)
    (key : List Nat) (henc : ∀ k x, c.aesEncrypt k x ≠ []) :
    ∀ (ds : List (List Nat)) (st : StoreState) (idx off : Nat),
    ((storeChunks c comp enc key st ds idx off).2.map (fun ci => ci.chunk_index)
        = List.range' idx ds.length) ∧
    ((storeChunks c comp enc key st ds idx off).2.map (fun ci => ci.size)
        = ds.map List.length) ∧
    (∀ i, i < ds.length →
      ((storeChunks c comp enc key st ds idx off).2.getD i ciDefault).offset
        = off + ((ds.take i).map List.length).sum) := by
  intro ds
  induction ds with
  | nil =>
    intro st idx off
    refine ⟨rfl, rfl, ?_⟩
    intro i hi
    simp at hi
  | cons d rest ih =>
    intro st idx off
    obtain ⟨st1, ci, hpc⟩ := processChunk_some c comp enc key st d idx off henc
    have hfields := processChunk_fields c comp enc key st d idx off st1 ci hpc
    have hstep : storeChunks c comp enc key st (d :: rest) idx off
        = ((storeChunks c comp enc key st1 rest (idx + 1) (off + d.length)).1,
           ci :: (storeChunks c comp enc key st1 rest (idx + 1) (off + d.length)).2) := by
      simp only [storeChunks, hpc]
    rw [hstep]
    obtain ⟨ih1, ih2, ih3⟩ := ih st1 (idx + 1) (off + d.length)
    refine ⟨?_, ?_, ?_⟩
    · simp only [List.map_cons, ih1, hfields.2.2.1, List.length_cons]
      rw [List.range'_succ]
    · simp only [List.map_cons, ih2, hfields.2.1]
    · intro i hi
      cases i with
      | zero =>
        simp [hfields.2.2.2]
      | succ j =>
        simp only [List.getD_cons_succ]
        rw [ih3 j (by simpa using hi)]
        simp only [List.take_succ_cons, List.map_cons, List.sum_cons]
        omega

/-- Indexing a mapped list of byte strings by default-extended position. -/
theorem getD_map_length (l : List (List Nat)) (i : Nat) :
    (l.map List.length).getD i 0 = (l.getD i []).length := by
  induction l generalizing i with
  | nil => cases i <;> simp
  | cons x xs ih =>
    cases i with
    | zero => simp
    | succ j => simpa using ih j

/-- Indexing the sizes of a chunk list by default-extended position. -/
theorem getD_map_size (l : List ChunkInfo) (i : Nat) :
    (l.map (fun ci => ci.size)).getD i 0 = (l.getD i ciDefault).size := by
  induction l generalizing i with
  | nil => cases i <;> simp [ciDefault]
  | cons x xs ih =>
    cases i with
    | zero => simp
    | succ j => simpa using ih j

/-- C3: Manifest shape.  For every FileManifest returned by `store_file`
(under the standing assumption that encryption cannot fail, so no chunk is
skipped), the `chunk_index` values are exactly `0,1,…,n-1`, each chunk's
offset equals the sum of the original sizes of all preceding chunks, and
the chunk sizes sum to the manifest's `file_size`. -/
theorem spec_C3_manifest_shape (c : Codec)
    (henc : ∀ k x, c.aesEncrypt k x ≠ [])
    (st : StoreState) (fp rp : String) (data : List Nat) (mtime : Nat)
    (comp : CompressionType) (encrypt : Bool) (key : List Nat) (job_id : Nat)
    (m : FileManifest)
    (hm : m = (ChunkStore.store_file c st fp comp encrypt key job_id rp data mtime).2) :
    (m.chunks.map (fun ci => ci.chunk_index) = List.range m.chunks.length) ∧
    (∀ i, i < m.chunks.length →
      (m.chunks.getD i ciDefault).offset
        = ((m.chunks.take i).map (fun ci => ci.size)).sum) ∧
    ((m.chunks.map (fun ci => ci.size)).sum = m.file_size) := by
  obtain ⟨h1, h2, h3⟩ := storeChunks_shape c comp encrypt key henc
    (chunkSplit data) st 0 0
  have hchunks : m.chunks = (storeChunks c comp encrypt key st (chunkSplit data) 0 0).2 := by
    rw [hm]
    unfold ChunkStore.store_file
    dsimp only
  have hsize : m.file_size = data.length := by
    rw [hm]
    unfold ChunkStore.store_file
    dsimp only
  have hlen2 : (storeChunks c comp encrypt key st (chunkSplit data) 0 0).2.length
      = (chunkSplit data).length := by
    have := congrArg List.length h2
    simpa using this
  have hlen : m.chunks.length = (chunkSplit data).length := by
    rw [hchunks, hlen2]
  refine ⟨?_, ?_, ?_⟩
  · rw [hchunks, hlen2, List.range_eq_range']
    exact h1
  · intro i hi
    have hi2 : i < (chunkSplit data).length := by rwa [← hlen]
    rw [hchunks]
    rw [h3 i hi2]
    rw [List.map_take, List.map_take, h2]
    omega
  · rw [hchunks, h2, hsize]
    exact chunkSplit_sum_length data

/-- C4: Fixed-size chunking.  For every nonempty file of size `N`,
`store_file` produces exactly `ceil(N / 65536)` chunks (again under the
assumption that encryption cannot fail); every chunk but the last has
`original_size` exactly `CHUNK_SIZE`, and the last chunk carries the
remaining `N - CHUNK_SIZE * (count - 1)` bytes. -/
theorem spec_C4_fixed_chunking (c : Codec)
    (henc : ∀ k x, c.aesEncrypt k x ≠ [])
    (st : StoreState) (fp rp : String) (data : List Nat) (mtime : Nat)
    (comp : CompressionType) (encrypt : Bool) (key : List Nat) (job_id : Nat)
    (hne : data ≠ []) (m : FileManifest)
    (hm : m = (ChunkStore.store_file c st fp comp encrypt key job_id rp data mtime).2) :
    (m.chunks.length = (data.length + CHUNK_SIZE - 1) / CHUNK_SIZE) ∧
    (∀ i, i + 1 < m.chunks.length →
      (m.chunks.getD i ciDefault).size = CHUNK_SIZE) ∧
    (m.chunks.getLast?.map (fun ci => ci.size)
      = some (data.length - CHUNK_SIZE * (m.chunks.length - 1))) := by
  obtain ⟨h1, h2, h3⟩ := storeChunks_shape c comp encrypt key henc
    (chunkSplit data) st 0 0
  have hchunks : m.chunks = (storeChunks c comp encrypt key st (chunkSplit data) 0 0).2 := by
    rw [hm]
    unfold ChunkStore.store_file
    dsimp only
  have hlen2 : (storeChunks c comp encrypt key st (chunkSplit data) 0 0).2.length
      = (chunkSplit data).length := by
    have := congrArg List.length h2
    simpa using this
  have hlen : m.chunks.length = (chunkSplit data).length := by
    rw [hchunks, hlen2]
  refine ⟨?_, ?_, ?_⟩
  · rw [hlen]
    exact chunkSplit_length data
  · intro i hi
    have hgd : (m.chunks.map (fun ci => ci.size)).getD i 0
        = ((chunkSplit data).map List.length).getD i 0 := by
      rw [hchunks, h2]
    rw [getD_map_size] at hgd
    rw [hgd, getD_map_length]
    exact chunkSplit_getD_length data i (by rwa [← hlen])
  · obtain ⟨d, hd1, hd2⟩ := chunkSplit_last data hne
    have hml : (m.chunks.map (fun ci => ci.size)).getLast?
        = ((chunkSplit data).map List.length).getLast? := by
      rw [hchunks, h2]
    rw [List.getLast?_map, List.getLast?_map, hd1] at hml
    simp only [Option.map_some'] at hml
    rw [hlen, hml, hd2]

/-- When `store_file_manifest` reports failure, the transaction rolled
back: the returned database is the one saved at BEGIN. -/
theorem store_file_manifest_false_eq (db : Database) (fail : Nat → Bool)
    (job_id : Nat) (m : FileManifest)
    (hf : (db.store_file_manifest fail job_id m).1 = false) :
    (db.store_file_manifest fail job_id m).2 = db := by
  unfold Database.store_file_manifest at hf ⊢
  by_cases h0 : fail 0 = true
  · rw [if_pos h0]
  · rw [if_neg h0] at hf ⊢
    dsimp only at hf ⊢
    rcases hgo : storeChunkRowsGo fail db.next_manifest_id 1 m.chunks
        { db with
            manifests := db.manifests ++
              [ManifestRow.mk db.next_manifest_id job_id m.file_path
                m.file_name m.file_size m.modified_time m.file_hash],
            next_manifest_id := db.next_manifest_id + 1 } with _ | db2
    · rfl
    · rw [hgo] at hf
      dsimp only at hf ⊢
      by_cases hc1 : fail (m.chunks.length + 1) = true
      · rw [if_pos hc1]
      · rw [if_neg hc1] at hf
        simp at hf

/-- When `store_file_manifest` reports success, the header row and all
chunk rows were committed (and nothing else changed). -/
theorem store_file_manifest_true_eq (db : Database) (fail : Nat → Bool)
    (job_id : Nat) (m : FileManifest)
    (hf : (db.store_file_manifest fail job_id m).1 = true) :
    (db.store_file_manifest fail job_id m).2
      = { db with
          manifests := db.manifests ++ [ManifestRow.mk db.next_manifest_id
            job_id m.file_path m.file_name m.file_size m.modified_time
            m.file_hash],
          file_chunks := db.file_chunks
            ++ chunkRowsFor db.next_manifest_id m.chunks,
          next_manifest_id := db.next_manifest_id + 1 } := by
  unfold Database.store_file_manifest at hf ⊢
  by_cases h0 : fail 0 = true
  · rw [if_pos h0] at hf
    simp at hf
  · rw [if_neg h0] at hf ⊢
    dsimp only at hf ⊢
    rcases hgo : storeChunkRowsGo fail db.next_manifest_id 1 m.chunks
        { db with
            manifests := db.manifests ++
              [ManifestRow.mk db.next_manifest_id job_id m.file_path
                m.file_name m.file_size m.modified_time m.file_hash],
            next_manifest_id := db.next_manifest_id + 1 } with _ | db2
    · rw [hgo] at hf
      simp at hf
    · rw [hgo] at hf
      dsimp only at hf ⊢
      by_cases hc1 : fail (m.chunks.length + 1) = true
      · rw [if_pos hc1] at hf
        simp at hf
      · rw [if_neg hc1]
        exact storeChunkRowsGo_some_eq fail db.next_manifest_id m.chunks 1 _ db2 hgo

/-- C9: Manifest-store atomicity.  `store_file_manifest` either persists
the manifest header together with all of its chunk references, or — when
any insert or the commit fails — persists nothing: on a false return the
metadata store is exactly what it was before the call. -/
theorem spec_C9_manifest_atomicity (db : Database) (fail : Nat → Bool)
    (job_id : Nat) (m : FileManifest) :
    ((db.store_file_manifest fail job_id m).1 = false →
      (db.store_file_manifest fail job_id m).2 = db) ∧
    ((db.store_file_manifest fail job_id m).1 = true →
      (db.store_file_manifest fail job_id m).2.manifests
          = db.manifests ++ [ManifestRow.mk db.next_manifest_id job_id
              m.file_path m.file_name m.file_size m.modified_time m.file_hash] ∧
      (db.store_file_manifest fail job_id m).2.file_chunks
          = db.file_chunks ++ chunkRowsFor db.next_manifest_id m.chunks ∧
      (db.store_file_manifest fail job_id m).2.jobs = db.jobs ∧
      (db.store_file_manifest fail job_id m).2.chunks = db.chunks) := by
  refine ⟨store_file_manifest_false_eq db fail job_id m, ?_⟩
  intro hf
  rw [store_file_manifest_true_eq db fail job_id m hf]
  exact ⟨rfl, rfl, rfl, rfl⟩

/-- Two boolean scans agree when the predicates agree on the list. -/
theorem all_congr_on {α : Type} (l : List α) (p q : α → Bool)
    (h : ∀ x ∈ l, p x = q x) : l.all p = l.all q := by
  induction l with
  | nil => rfl
  | cons x xs ih =>
    simp only [List.all_cons]
    rw [h x (by simp), ih (fun y hy => h y (by simp [hy]))]

/-- The per-chunk check of `verify_backup`, unfolded to its existence
meaning. -/
theorem verify_chunk_iff (st : StoreState) (ch : ChunkInfo) :
    ((match st.db.get_chunk_meta ch.hash with
      | none => false
      | some meta => (diskLookup st.disk meta.storage_path).isSome) = true)
    ↔ ∃ meta, st.db.get_chunk_meta ch.hash = some meta ∧
        (diskLookup st.disk meta.storage_path).isSome = true := by
  rcases h : st.db.get_chunk_meta ch.hash with _ | meta
  · simp
  · simp

/-- C7: `verify_backup` is true exactly when the job exists with status
COMPLETED and every ChunkRef of every manifest has a ChunkRecord whose
`storage_path` exists on disk; moreover the result depends on the disk
only through which paths exist, never through file contents. -/
theorem spec_C7_verify_backup (st : StoreState) (job_id : Nat) :
    (RestoreEngine.verify_backup st job_id = true ↔
      (∃ job, st.db.get_job job_id = some job ∧
        job.status = JobStatus.COMPLETED) ∧
      (∀ m ∈ st.db.get_file_manifests job_id, ∀ ch ∈ m.chunks,
        ∃ meta, st.db.get_chunk_meta ch.hash = some meta ∧
          (diskLookup st.disk meta.storage_path).isSome = true)) ∧
    (∀ disk2 : Disk,
      (∀ p, (diskLookup disk2 p).isSome = (diskLookup st.disk p).isSome) →
      RestoreEngine.verify_backup { db := st.db, disk := disk2 } job_id
        = RestoreEngine.verify_backup st job_id) := by
  constructor
  · unfold RestoreEngine.verify_backup
    rcases hj : st.db.get_job job_id with _ | job
    · simp [hj]
    · dsimp only
      by_cases hs : job.status = JobStatus.COMPLETED
      · rw [if_neg (by simp [hs])]
        simp only [List.all_eq_true]
        constructor
        · intro h
          refine ⟨⟨job, rfl, hs⟩, ?_⟩
          intro m hm ch hch
          exact (verify_chunk_iff st ch).mp (by simpa using h m hm ch hch)
        · rintro ⟨-, h2⟩
          intro m hm ch hch
          exact (verify_chunk_iff st ch).mpr (h2 m hm ch hch)
      · rw [if_pos (by simp [hs])]
        simp only [Bool.false_eq_true, false_iff]
        rintro ⟨⟨job2, hj2, hs2⟩, -⟩
        injection hj2 with hj2
        subst hj2
        exact hs hs2
  · intro disk2 hsame
    unfold RestoreEngine.verify_backup
    rcases hj : st.db.get_job job_id with _ | job
    · rfl
    · dsimp only
      by_cases hs : job.status = JobStatus.COMPLETED
      · rw [if_neg (by simp [hs]), if_neg (by simp [hs])]
        apply all_congr_on
        intro m hm
        apply all_congr_on
        intro ch hch
        rcases hmeta : st.db.get_chunk_meta ch.hash with _ | meta
        · rfl
        · exact hsame meta.storage_path
      · rw [if_pos (by simp [hs]), if_pos (by simp [hs])]

/-- `restoreChunkData` reads only the hash and size of a ChunkRef, never
its `deduplicated` flag or offset. -/
theorem restoreChunkData_congr (c : Codec) (st : StoreState)
    (comp : CompressionType) (enc : Bool) (key : List Nat)
    (a b : ChunkInfo) (hh : a.hash = b.hash) (hs : a.size = b.size) :
    restoreChunkData c st comp enc key a = restoreChunkData c st comp enc key b := by
  unfold restoreChunkData
  rw [hh, hs]

/-- The restore loop is unchanged under replacing chunk descriptors by
ones that agree on everything except the `deduplicated` flag. -/
theorem restoreGo_congr (c : Codec) (st : StoreState) (comp : CompressionType)
    (enc : Bool) (key : List Nat) (fh : Nat) (cis1 cis2 : List ChunkInfo)
    (hfor : List.Forall₂ (fun a b : ChunkInfo => a.hash = b.hash ∧
      a.offset = b.offset ∧ a.size = b.size ∧ a.chunk_index = b.chunk_index)
      cis1 cis2) :
    ∀ out, restoreGo c st comp enc key fh cis1 out
      = restoreGo c st comp enc key fh cis2 out := by
  induction hfor with
  | nil => intro out; rfl
  | @cons a b cis1t cis2t h1 h2 ih =>
    intro out
    simp only [restoreGo]
    rw [restoreChunkData_congr c st comp enc key a b h1.1 h1.2.2.1]
    rcases hv : restoreChunkData c st comp enc key b with _ | d
    · rfl
    · exact ih (out ++ d)

/-- C10: restore ignores dedup flags.  Two manifests identical except for
the `deduplicated` flags on their chunks make `restore_file` return the
same flag and write the same destination bytes from the same state. -/
theorem spec_C10_restore_ignores_dedup (c : Codec) (st : StoreState)
    (comp : CompressionType) (enc : Bool) (key : List Nat)
    (m1 m2 : FileManifest) (h : EqModDedup m1 m2) :
    ChunkStore.restore_file c st m1 comp enc key
      = ChunkStore.restore_file c st m2 comp enc key := by
  obtain ⟨-, -, -, -, hfh, hchunks⟩ := h
  unfold ChunkStore.restore_file
  rw [hfh]
  exact restoreGo_congr c st comp enc key m2.file_hash m1.chunks m2.chunks hchunks []

/-- The restore loop of `restore_job` counts exactly the manifests whose
`restore_file` succeeds: a per-file failure never aborts the fold. -/
theorem restoreJob_foldl (c : Codec) (st : StoreState) (comp : CompressionType)
    (enc : Bool) (key : List Nat) (dest : String) :
    ∀ (ms : List FileManifest) (r : RestoreResult),
    (ms.foldl (restoreJobStep c st comp enc key dest) r).files_restored
      = r.files_restored + (ms.filter (fun m =>
          (ChunkStore.restore_file c st m comp enc key).1)).length := by
  intro ms
  induction ms with
  | nil => intro r; simp
  | cons m ms2 ih =>
    intro r
    simp only [List.foldl_cons]
    rw [ih]
    unfold restoreJobStep
    by_cases hok : (ChunkStore.restore_file c st m comp enc key).1 = true
    · rw [if_pos hok]
      simp [List.filter_cons, hok]
      omega
    · rw [if_neg hok]
      simp [List.filter_cons, hok]

/-- C8: `restore_job` control flow.  `success` is false whenever the job
does not exist, is not COMPLETED, or is encrypted with no stored key;
otherwise each manifest is attempted independently (a per-file failure
does not abort the rest: `files_restored` counts exactly the manifests
whose `restore_file` succeeds), `success = files_restored > 0` when
manifests exist, and `success = true` when the job has no manifests.
`restore_job` never writes to the metadata store or the chunk store. -/
theorem spec_C8_restore_job (c : Codec) (st : StoreState) (job_id : Nat)
    (dest : String) :
    (st.db.get_job job_id = none →
      (RestoreEngine.restore_job c st job_id dest).success = false) ∧
    (∀ job, st.db.get_job job_id = some job →
      ¬ job.status = JobStatus.COMPLETED →
      (RestoreEngine.restore_job c st job_id dest).success = false) ∧
    (∀ job, st.db.get_job job_id = some job →
      job.status = JobStatus.COMPLETED → job.encrypt = true →
      st.db.get_encryption_key job_id = none →
      (RestoreEngine.restore_job c st job_id dest).success = false) ∧
    (∀ job aes_key, st.db.get_job job_id = some job →
      job.status = JobStatus.COMPLETED →
      (if job.encrypt then st.db.get_encryption_key job_id else some [])
        = some aes_key →
      ((st.db.get_file_manifests job_id = [] →
        (RestoreEngine.restore_job c st job_id dest).success = true) ∧
      (¬ st.db.get_file_manifests job_id = [] →
        (RestoreEngine.restore_job c st job_id dest).files_restored
          = ((st.db.get_file_manifests job_id).filter (fun m =>
              (ChunkStore.restore_file c st m job.compression job.encrypt
                aes_key).1)).length ∧
        (RestoreEngine.restore_job c st job_id dest).success
          = decide (0 < (RestoreEngine.restore_job c st job_id dest).files_restored)))) := by
  unfold RestoreEngine.restore_job
  rcases hj : st.db.get_job job_id with _ | job
  · refine ⟨fun _ => rfl, ?_, ?_, ?_⟩
    · intro job hjs
      exact Option.noConfusion hjs
    · intro job hjs
      exact fun _ _ _ => Option.noConfusion hjs
    · intro job ak hjs
      exact fun _ _ => Option.noConfusion hjs
  · dsimp only
    by_cases hst : job.status = JobStatus.COMPLETED
    · rw [if_neg (by simp [hst])]
      rcases hkey : (if job.encrypt then st.db.get_encryption_key job_id
          else some []) with _ | aes_key
      · dsimp only
        refine ⟨fun hno => Option.noConfusion hno, ?_, ?_, ?_⟩
        · intro job2 hj2 hst2
          rfl
        · intro job2 hj2 hst2 henc2 hkey2
          rfl
        · intro job2 ak hj2 hst2 hk2
          injection hj2 with e
          subst e
          rw [hkey] at hk2
          exact Option.noConfusion hk2
      · dsimp only
        by_cases hman : st.db.get_file_manifests job_id = []
        · rw [if_pos hman]
          refine ⟨fun hno => Option.noConfusion hno, ?_, ?_, ?_⟩
          · intro job2 hj2 hst2
            injection hj2 with e
            subst e
            exact absurd hst hst2
          · intro job2 hj2 hst2 henc2 hkey2
            injection hj2 with e
            subst e
            rw [if_pos henc2, hkey2] at hkey
            exact Option.noConfusion hkey
          · intro job2 ak hj2 hst2 hk2
            exact ⟨fun _ => rfl, fun hcontra => absurd hman hcontra⟩
        · rw [if_neg hman]
          dsimp only
          refine ⟨fun hno => Option.noConfusion hno, ?_, ?_, ?_⟩
          · intro job2 hj2 hst2
            injection hj2 with e
            subst e
            exact absurd hst hst2
          · intro job2 hj2 hst2 henc2 hkey2
            injection hj2 with e
            subst e
            rw [if_pos henc2, hkey2] at hkey
            exact Option.noConfusion hkey
          · intro job2 ak hj2 hst2 hk2
            injection hj2 with e
            subst e
            rw [hkey] at hk2
            injection hk2 with e2
            subst e2
            refine ⟨fun hc => absurd hc hman, fun _ => ⟨?_, ?_⟩⟩
            · rw [restoreJob_foldl]
              simp
            · rfl
    · rw [if_pos (by simp [hst])]
      refine ⟨fun hno => Option.noConfusion hno, ?_, ?_, ?_⟩
      · intro job2 hj2 hst2
        rfl
      · intro job2 hj2 hst2
        injection hj2 with e
        subst e
        exact fun _ _ => absurd hst2 hst
      · intro job2 ak hj2 hst2
        injection hj2 with e
        subst e
        exact fun _ => absurd hst2 hst

/-- A found entry is still the first match after appending. -/
theorem find?_append_of_some {α : Type} (l1 l2 : List α) (p : α → Bool)
    (x : α) (h : l1.find? p = some x) : (l1 ++ l2).find? p = some x := by
  induction l1 with
  | nil => simp [List.find?] at h
  | cons a tl ih =>
    rw [List.cons_append]
    rw [List.find?] at h ⊢
    rcases hp : p a with - | -
    · rw [hp] at h
      exact ih h
    · rwa [hp] at h

/-- Searching an extended list when the prefix has no match. -/
theorem find?_append_of_none {α : Type} (l1 l2 : List α) (p : α → Bool)
    (h : l1.find? p = none) : (l1 ++ l2).find? p = l2.find? p := by
  induction l1 with
  | nil => rfl
  | cons a tl ih =>
    rw [List.cons_append]
    rw [List.find?] at h ⊢
    rcases hp : p a with - | -
    · rw [hp] at h
      exact ih h
    · rw [hp] at h
      cases h

/-- Mapping a key-preserving function commutes with lookup by key. -/
theorem find?_map_keyfix (l : List (Nat × List Nat))
    (f : Nat × List Nat → Nat × List Nat) (hf : ∀ p, (f p).1 = p.1) (x : Nat) :
    (l.map f).find? (fun p => p.1 = x) = (l.find? (fun p => p.1 = x)).map f := by
  induction l with
  | nil => rfl
  | cons a tl ih =>
    rw [List.map_cons, List.find?, List.find?]
    rcases hp : (decide (a.1 = x)) with - | -
    · rw [show (decide ((f a).1 = x)) = false by rw [hf a]; exact hp]
      exact ih
    · rw [show (decide ((f a).1 = x)) = true by rw [hf a]; exact hp]
      rfl

/-- Lookup by key ignores entries filtered out under a different key. -/
theorem find?_filter_keep (l : List (Nat × List Nat)) (x n : Nat)
    (hxn : ¬ x = n) :
    (l.filter (fun p => ¬ p.1 = n)).find? (fun p => p.1 = x)
      = l.find? (fun p => p.1 = x) := by
  induction l with
  | nil => rfl
  | cons a tl ih =>
    by_cases han : a.1 = n
    · have hax : ¬ a.1 = x := by
        rw [han]
        intro h
        exact hxn h.symm
      rw [List.filter_cons_of_neg (by simp [han])]
      rw [ih, List.find?]
      rw [show (decide (a.1 = x)) = false by simp [hax]]
    · rw [List.filter_cons_of_pos (by simp [han])]
      rw [List.find?, List.find?]
      rcases hp : (decide (a.1 = x)) with - | -
      · exact ih
      · rfl

/-- A node's successor set when the node is absent from the graph. -/
theorem succs_eq_nil_of_not_node (g : DAGraph) (n : Nat)
    (h : ¬ g.has_node n = true) : g.succs n = [] := by
  unfold DAGraph.succs
  rcases hf : g.adj.find? (fun p => p.1 = n) with - | p
  · rw [hf]
  · exfalso
    apply h
    unfold DAGraph.has_node
    rw [List.any_eq_true]
    have hpn := List.find?_some hf
    exact ⟨p, List.mem_of_find?_eq_some hf, hpn⟩

/-- `add_node` does not change any successor set. -/
theorem succs_add_node (g : DAGraph) (n a : Nat) :
    (g.add_node n).succs a = g.succs a := by
  unfold DAGraph.add_node
  by_cases hn : g.has_node n = true
  · rw [if_pos hn]
  · rw [if_neg hn]
    unfold DAGraph.succs
    rcases hf : g.adj.find? (fun p => p.1 = a) with - | p
    · rw [show (({ adj := g.adj ++ [(n, [])] } : DAGraph)).adj = g.adj ++ [(n, [])] from rfl]
      rw [find?_append_of_none _ _ _ hf, hf]
      by_cases han : n = a
      · simp [List.find?, han]
      · simp [List.find?, han]
    · rw [show (({ adj := g.adj ++ [(n, [])] } : DAGraph)).adj = g.adj ++ [(n, [])] from rfl]
      rw [find?_append_of_some _ _ _ _ hf, hf]

/-- `add_node` does not change the edge relation. -/
theorem Edge_add_node (g : DAGraph) (n a b : Nat) :
    (g.add_node n).Edge a b ↔ g.Edge a b := by
  unfold DAGraph.Edge
  rw [succs_add_node]

/-- Membership in an `unordered_set` insertion. -/
theorem mem_insertSucc (l : List Nat) (b y : Nat) :
    y ∈ insertSucc l b ↔ y ∈ l ∨ y = b := by
  unfold insertSucc
  by_cases hb : b ∈ l
  · rw [if_pos hb]
    constructor
    · exact Or.inl
    · rintro (h | h)
      · exact h
      · rwa [h]
  · rw [if_neg hb]
    simp

/-- The edge-insertion map of `add_edge` preserves every entry's key. -/
theorem addEdgeRaw_keyfix (a b : Nat) (p : Nat × List Nat) :
    ((if p.1 = a then (p.1, insertSucc p.2 b) else p) : Nat × List Nat).1 = p.1 := by
  by_cases h : p.1 = a
  · rw [if_pos h]
  · rw [if_neg h]

/-- Successor sets after the raw edge insertion of `add_edge`, at any
other node. -/
theorem succs_addEdgeRaw_other (g : DAGraph) (a b x : Nat) (hx : ¬ x = a) :
    (g.addEdgeRaw a b).succs x = g.succs x := by
  unfold DAGraph.addEdgeRaw DAGraph.succs
  rw [show (({ adj := g.adj.map (fun p => if p.1 = a then (p.1, insertSucc p.2 b) else p) } : DAGraph)).adj
      = g.adj.map (fun p => if p.1 = a then (p.1, insertSucc p.2 b) else p) from rfl]
  rw [find?_map_keyfix _ _ (addEdgeRaw_keyfix a b) x]
  rcases hf : g.adj.find? (fun p => p.1 = x) with - | p
  · rw [hf]
    rfl
  · rw [hf]
    have hp1 : p.1 = x := by
      have := List.find?_some hf
      simpa using this
    dsimp only [Option.map_some']
    rw [if_neg (by rw [hp1]; exact hx)]

/-- The inserted edge's source gains exactly the new successor. -/
theorem succs_addEdgeRaw_self (g : DAGraph) (a b : Nat)
    (ha : g.has_node a = true) :
    (g.addEdgeRaw a b).succs a = insertSucc (g.succs a) b := by
  unfold DAGraph.addEdgeRaw DAGraph.succs
  rw [show (({ adj := g.adj.map (fun p => if p.1 = a then (p.1, insertSucc p.2 b) else p) } : DAGraph)).adj
      = g.adj.map (fun p => if p.1 = a then (p.1, insertSucc p.2 b) else p) from rfl]
  rw [find?_map_keyfix _ _ (addEdgeRaw_keyfix a b) a]
  rcases hf : g.adj.find? (fun p => p.1 = a) with - | p
  · exfalso
    unfold DAGraph.has_node at ha
    rw [List.any_eq_true] at ha
    obtain ⟨p, hp, hp1⟩ := ha
    have hsome : (g.adj.find? (fun q => q.1 = a)).isSome := by
      rw [List.find?_isSome]
      exact ⟨p, hp, hp1⟩
    rw [hf] at hsome
    cases hsome
  · rw [hf]
    have hp1 : p.1 = a := by
      have := List.find?_some hf
      simpa using this
    dsimp only [Option.map_some']
    rw [if_pos hp1]

/-- Edges after the raw edge insertion: the old edges plus `a → b`. -/
theorem Edge_addEdgeRaw (g : DAGraph) (a b x y : Nat)
    (ha : g.has_node a = true) :
    (g.addEdgeRaw a b).Edge x y ↔ (g.Edge x y ∨ (x = a ∧ y = b)) := by
  unfold DAGraph.Edge
  by_cases hx : x = a
  · subst hx
    rw [succs_addEdgeRaw_self g x b ha, mem_insertSucc]
    constructor
    · rintro (h | h)
      · exact Or.inl h
      · exact Or.inr ⟨rfl, h⟩
    · rintro (h | ⟨-, h⟩)
      · exact Or.inl h
      · exact Or.inr h
  · rw [succs_addEdgeRaw_other g a b x hx]
    constructor
    · exact Or.inl
    · rintro (h | ⟨h1, -⟩)
      · exact h
      · exact absurd h1 hx

/-- The edge-erasure map of `remove_edge` preserves every entry's key. -/
theorem removeEdge_keyfix (a b : Nat) (q : Nat × List Nat) :
    ((if q.1 = a then (q.1, q.2.erase b) else q) : Nat × List Nat).1 = q.1 := by
  by_cases h : q.1 = a
  · rw [if_pos h]
  · rw [if_neg h]

/-- `remove_edge` only removes edges. -/
theorem Edge_remove_edge_sub (g : DAGraph) (a b x y : Nat)
    (h : (g.remove_edge a b).2.Edge x y) : g.Edge x y := by
  unfold DAGraph.remove_edge at h
  rcases hf : g.adj.find? (fun p => p.1 = a) with - | p
  · rwa [hf] at h
  · rw [hf] at h
    dsimp only at h
    by_cases hb : b ∈ p.2
    · rw [if_pos hb] at h
      unfold DAGraph.Edge DAGraph.succs at h ⊢
      rw [show (({ adj := g.adj.map (fun q => if q.1 = a then (q.1, q.2.erase b) else q) } : DAGraph)).adj
          = g.adj.map (fun q => if q.1 = a then (q.1, q.2.erase b) else q) from rfl] at h
      rw [find?_map_keyfix _ _ (removeEdge_keyfix a b) x] at h
      rcases hf2 : g.adj.find? (fun q => q.1 = x) with - | q
      · rw [hf2] at h
        cases h
      · rw [hf2] at h
        dsimp only [Option.map_some'] at h
        by_cases hqa : q.1 = a
        · rw [if_pos hqa] at h
          dsimp only at h
          rw [hf2]
          exact List.mem_of_mem_erase h
        · rw [if_neg hqa] at h
          rw [hf2]
          exact h
    · rwa [if_neg hb] at h

/-- `remove_node` only removes edges. -/
theorem Edge_remove_node_sub (g : DAGraph) (n x y : Nat)
    (h : (g.remove_node n).Edge x y) : g.Edge x y := by
  unfold DAGraph.remove_node DAGraph.Edge DAGraph.succs at h
  unfold DAGraph.Edge DAGraph.succs
  rw [show (({ adj := (g.adj.filter (fun p => ¬ p.1 = n)).map (fun p => (p.1, p.2.erase n)) } : DAGraph)).adj
      = (g.adj.filter (fun p => ¬ p.1 = n)).map (fun p => (p.1, p.2.erase n)) from rfl] at h
  rw [find?_map_keyfix _ (fun p => (p.1, p.2.erase n)) (fun p => rfl) x] at h
  by_cases hxn : x = n
  · subst hxn
    have hnone : (g.adj.filter (fun p => ¬ p.1 = x)).find? (fun p => p.1 = x) = none := by
      rw [List.find?_eq_none]
      intro q hq
      have hq2 := List.of_mem_filter hq
      simpa using hq2
    rw [hnone] at h
    cases h
  · rw [find?_filter_keep _ _ _ hxn] at h
    rcases hf : g.adj.find? (fun p => p.1 = x) with - | p
    · rw [hf] at h
      cases h
    · rw [hf] at h
      dsimp only [Option.map_some'] at h
      rw [hf]
      exact List.mem_of_mem_erase h

/-- Concatenation of walks. -/
theorem WalkL_append (g : DAGraph) :
    ∀ (l1 : List Nat) (a b : Nat), g.WalkL a l1 b →
    ∀ (l2 : List Nat) (c : Nat), g.WalkL b l2 c → g.WalkL a (l1 ++ l2) c := by
  intro l1
  induction l1 with
  | nil =>
    intro a b h l2 c h2
    rw [show a = b from h]
    exact h2
  | cons x tl ih =>
    intro a b h l2 c h2
    obtain ⟨he, hw⟩ := h
    exact ⟨he, ih x b hw l2 c h2⟩

/-- Walks transfer along an edge-relation inclusion. -/
theorem WalkL_mono (g1 g2 : DAGraph)
    (hsub : ∀ x y, g1.Edge x y → g2.Edge x y) :
    ∀ (l : List Nat) (a b : Nat), g1.WalkL a l b → g2.WalkL a l b := by
  intro l
  induction l with
  | nil => intro a b h; exact h
  | cons x tl ih =>
    intro a b h
    obtain ⟨he, hw⟩ := h
    exact ⟨hsub a x he, ih x b hw⟩

/-- Transitivity of reachability. -/
theorem Reach_trans (g : DAGraph) (a b c : Nat) (h1 : g.Reach a b)
    (h2 : g.Reach b c) : g.Reach a c := by
  obtain ⟨l1, hl1⟩ := h1
  obtain ⟨l2, hl2⟩ := h2
  exact ⟨l1 ++ l2, WalkL_append g l1 a b hl1 l2 c hl2⟩

/-- Reachability along an edge-relation inclusion. -/
theorem Reach_mono (g1 g2 : DAGraph)
    (hsub : ∀ x y, g1.Edge x y → g2.Edge x y) (a b : Nat)
    (h : g1.Reach a b) : g2.Reach a b := by
  obtain ⟨l, hl⟩ := h
  exact ⟨l, WalkL_mono g1 g2 hsub l a b hl⟩

/-- `add_node` does not change reachability. -/
theorem Reach_add_node (g : DAGraph) (n a b : Nat) :
    (g.add_node n).Reach a b ↔ g.Reach a b := by
  constructor
  · exact Reach_mono _ g (fun x y h => (Edge_add_node g n x y).mp h) a b
  · exact Reach_mono g _ (fun x y h => (Edge_add_node g n x y).mpr h) a b

/-- BFS soundness: when the search starting from nodes reachable from `s`
reports success, `t` is reachable from `s`. -/
theorem bfsAux_sound (g : DAGraph) (t s : Nat) :
    ∀ (fuel : Nat) (q V : List Nat), (∀ u ∈ q, g.Reach s u) →
    bfsAux g t fuel q V = true → g.Reach s t := by
  intro fuel
  induction fuel with
  | zero =>
    intro q V hq h
    simp [bfsAux] at h
  | succ f ih =>
    intro q V hq h
    cases q with
    | nil => simp [bfsAux] at h
    | cons cur rest =>
      simp only [bfsAux] at h
      by_cases hct : cur = t
      · subst hct
        exact hq cur (List.mem_cons_self cur rest)
      · rw [if_neg hct] at h
        by_cases hcv : cur ∈ V
        · rw [if_pos hcv] at h
          exact ih rest V (fun u hu => hq u (List.mem_cons_of_mem cur hu)) h
        · rw [if_neg hcv] at h
          refine ih (rest ++ g.succs cur) (cur :: V) ?_ h
          intro u hu
          rcases List.mem_append.mp hu with h1 | h1
          · exact hq u (List.mem_cons_of_mem cur h1)
          · obtain ⟨l, hl⟩ := hq cur (List.mem_cons_self cur rest)
            exact ⟨l ++ [u], WalkL_append g l s cur hl [u] u ⟨h1, rfl⟩⟩

/-- Cutting a walk at the last occurrence of a node on it: the suffix is a
walk from that node which avoids it and stays on the original walk. -/
theorem WalkL_cut (g : DAGraph) :
    ∀ (l : List Nat) (a b c : Nat), g.WalkL a l b → (c = a ∨ c ∈ l) →
    ∃ l2, g.WalkL c l2 b ∧ ¬ c ∈ l2 ∧ ∀ x ∈ l2, x ∈ l := by
  intro l
  induction l with
  | nil =>
    intro a b c hw hc
    rcases hc with hc | hc
    · refine ⟨[], ?_, by simp, by simp⟩
      rw [hc]
      exact hw
    · cases hc
  | cons x tl ih =>
    intro a b c hw hc
    obtain ⟨hedge, hwt⟩ := hw
    by_cases hct : c ∈ tl
    · obtain ⟨l2, h1, h2, h3⟩ := ih x b c hwt (Or.inr hct)
      exact ⟨l2, h1, h2, fun y hy => List.mem_cons_of_mem x (h3 y hy)⟩
    · by_cases hcx : c = x
      · subst hcx
        exact ⟨tl, hwt, hct, fun y hy => List.mem_cons_of_mem c hy⟩
      · have hca : c = a := by
          rcases hc with hc | hc
          · exact hc
          · rcases List.mem_cons.mp hc with h2 | h2
            · exact absurd h2 hcx
            · exact absurd h2 hct
        refine ⟨x :: tl, ?_, ?_, fun y hy => hy⟩
        · rw [hca]
          exact ⟨hedge, hwt⟩
        · intro hcmem
          rcases List.mem_cons.mp hcmem with h2 | h2
          · exact hcx h2
          · exact hct h2

/-- Visiting one more node never increases the unvisited weight. -/
theorem wlist_cons_le : ∀ (l : List (Nat × List Nat)) (V : List Nat) (v : Nat),
    ((l.filter (fun p => ¬ p.1 ∈ v :: V)).map (fun p => 1 + p.2.length)).sum
      ≤ ((l.filter (fun p => ¬ p.1 ∈ V)).map (fun p => 1 + p.2.length)).sum := by
  intro l
  induction l with
  | nil => intro V v; simp
  | cons p tl ih =>
    intro V v
    by_cases hv : p.1 ∈ v :: V
    · rw [List.filter_cons_of_neg (by simp [hv])]
      by_cases hv2 : p.1 ∈ V
      · rw [List.filter_cons_of_neg (by simp [hv2])]
        exact ih V v
      · rw [List.filter_cons_of_pos (by simp [hv2])]
        simp only [List.map_cons, List.sum_cons]
        have := ih V v
        omega
    · have hv2 : ¬ p.1 ∈ V := fun hc => hv (List.mem_cons_of_mem v hc)
      rw [List.filter_cons_of_pos (by simp [hv]),
        List.filter_cons_of_pos (by simp [hv2])]
      simp only [List.map_cons, List.sum_cons]
      have := ih V v
      omega

/-- A filtered weight never exceeds the total weight. -/
theorem wlist_le_total :
    ∀ (l : List (Nat × List Nat)) (pred : Nat × List Nat → Bool),
    ((l.filter pred).map (fun p => 1 + p.2.length)).sum
      ≤ (l.map (fun p => 1 + p.2.length)).sum := by
  intro l
  induction l with
  | nil => intro pred; simp
  | cons p tl ih =>
    intro pred
    by_cases hp : pred p = true
    · rw [List.filter_cons_of_pos hp]
      simp only [List.map_cons, List.sum_cons]
      have := ih pred
      omega
    · rw [List.filter_cons_of_neg (by simpa using hp)]
      simp only [List.map_cons, List.sum_cons]
      have := ih pred
      omega

/-- Successor set of a graph whose first adjacency entry carries the key. -/
theorem succs_cons_eq (p : Nat × List Nat) (tl : List (Nat × List Nat))
    (cur : Nat) (hp : p.1 = cur) :
    DAGraph.succs { adj := p :: tl } cur = p.2 := by
  unfold DAGraph.succs
  rw [show ({ adj := p :: tl } : DAGraph).adj = p :: tl from rfl]
  rw [List.find?]
  rw [show (decide (p.1 = cur)) = true by simp [hp]]

/-- Successor lookup skips an adjacency entry with a different key. -/
theorem succs_cons_ne (p : Nat × List Nat) (tl : List (Nat × List Nat))
    (cur : Nat) (hp : ¬ p.1 = cur) :
    DAGraph.succs { adj := p :: tl } cur = DAGraph.succs { adj := tl } cur := by
  unfold DAGraph.succs
  rw [show ({ adj := p :: tl } : DAGraph).adj = p :: tl from rfl]
  rw [show ({ adj := tl } : DAGraph).adj = tl from rfl]
  rw [List.find?]
  rw [show (decide (p.1 = cur)) = false by simp [hp]]

/-- Expanding an unvisited node that is present in the adjacency map pays
for itself and its successor list in the weight measure. -/
theorem wlist_pop :
    ∀ (l : List (Nat × List Nat)) (V : List Nat) (cur : Nat),
    ¬ cur ∈ V → l.any (fun p => p.1 = cur) = true →
    ((l.filter (fun p => ¬ p.1 ∈ cur :: V)).map (fun p => 1 + p.2.length)).sum
        + 1 + (DAGraph.succs { adj := l } cur).length
      ≤ ((l.filter (fun p => ¬ p.1 ∈ V)).map (fun p => 1 + p.2.length)).sum := by
  intro l
  induction l with
  | nil =>
    intro V cur hcv hany
    simp at hany
  | cons p tl ih =>
    intro V cur hcv hany
    by_cases hp : p.1 = cur
    · rw [List.filter_cons_of_neg (by simp [hp])]
      rw [List.filter_cons_of_pos (by simp [hp, hcv])]
      rw [succs_cons_eq p tl cur hp]
      simp only [List.map_cons, List.sum_cons]
      have := wlist_cons_le tl V cur
      omega
    · have hany2 : tl.any (fun q => q.1 = cur) = true := by
        simpa [hp] using hany
      rw [succs_cons_ne p tl cur hp]
      by_cases hv : p.1 ∈ V
      · rw [List.filter_cons_of_neg (by simp [hv])]
        rw [List.filter_cons_of_neg (by simp [hv])]
        exact ih V cur hcv hany2
      · rw [List.filter_cons_of_pos (by simp [hp, hv])]
        rw [List.filter_cons_of_pos (by simp [hp, hv])]
        simp only [List.map_cons, List.sum_cons]
        have := ih V cur hcv hany2
        omega

/-- Visiting one more node never increases the weight of a graph. -/
theorem weight_cons_le (g : DAGraph) (V : List Nat) (v : Nat) :
    g.weight (v :: V) ≤ g.weight V :=
  wlist_cons_le g.adj V v

/-- Expanding an unvisited present node strictly reduces the measure. -/
theorem weight_pop (g : DAGraph) (V : List Nat) (cur : Nat)
    (hcv : ¬ cur ∈ V) (hnode : g.has_node cur = true) :
    g.weight (cur :: V) + 1 + (g.succs cur).length ≤ g.weight V :=
  wlist_pop g.adj V cur hcv hnode

/-- When the expanded node lies on a walk to the target, one of its
successors carries a walk to the target avoiding the new visited set. -/
theorem cut_witness (g : DAGraph) (t cur : Nat) (hct : ¬ cur = t)
    (V : List Nat) (l : List Nat) (a : Nat) (hwl : g.WalkL a l t)
    (hlV : ∀ x ∈ l, ¬ x ∈ V) (hc : cur = a ∨ cur ∈ l) :
    ∃ x, x ∈ g.succs cur ∧ ¬ x ∈ cur :: V ∧
      ∃ l3, g.WalkL x l3 t ∧ ∀ y ∈ l3, ¬ y ∈ cur :: V := by
  obtain ⟨l2, hw2, hc2, hsub2⟩ := WalkL_cut g l a t cur hwl hc
  cases l2 with
  | nil => exact absurd hw2 hct
  | cons x l3 =>
    obtain ⟨hex2, hw3⟩ := hw2
    refine ⟨x, hex2, ?_, l3, hw3, ?_⟩
    · intro hx
      rcases List.mem_cons.mp hx with h2 | h2
      · exact hc2 (h2 ▸ List.mem_cons_self x l3)
      · exact hlV x (hsub2 x (List.mem_cons_self x l3)) h2
    · intro y hy hyc
      rcases List.mem_cons.mp hyc with h2 | h2
      · exact hc2 (h2 ▸ List.mem_cons_of_mem x hy)
      · exact hlV y (hsub2 y (List.mem_cons_of_mem x hy)) h2

/-- BFS completeness: with fuel at least the measure, the search finds the
target whenever some queue element carries a walk to it avoiding the
visited set. -/
theorem bfsAux_complete (g : DAGraph) (t : Nat) :
    ∀ (fuel : Nat) (q V : List Nat), q.length + g.weight V ≤ fuel →
    (∃ u, u ∈ q ∧ ¬ u ∈ V ∧ ∃ l, g.WalkL u l t ∧ ∀ x ∈ l, ¬ x ∈ V) →
    bfsAux g t fuel q V = true := by
  intro fuel
  induction fuel with
  | zero =>
    intro q V hm hex
    obtain ⟨u, huq, -⟩ := hex
    have : 0 < q.length := List.length_pos.mpr (List.ne_nil_of_mem huq)
    omega
  | succ f ih =>
    intro q V hm hex
    obtain ⟨u, huq, huV, l, hwl, hlV⟩ := hex
    cases q with
    | nil => cases huq
    | cons cur rest =>
      simp only [bfsAux]
      by_cases hct : cur = t
      · rw [if_pos hct]
      · rw [if_neg hct]
        by_cases hcv : cur ∈ V
        · rw [if_pos hcv]
          apply ih rest V
          · simp only [List.length_cons] at hm
            omega
          · have hne : ¬ u = cur := fun he => huV (he ▸ hcv)
            have hur : u ∈ rest := by
              rcases List.mem_cons.mp huq with h2 | h2
              · exact absurd h2 hne
              · exact h2
            exact ⟨u, hur, huV, l, hwl, hlV⟩
        · rw [if_neg hcv]
          apply ih (rest ++ g.succs cur) (cur :: V)
          · by_cases hnode : g.has_node cur = true
            · have hpop := weight_pop g V cur hcv hnode
              simp only [List.length_append, List.length_cons] at hm ⊢
              omega
            · have h0 : g.succs cur = [] := succs_eq_nil_of_not_node g cur hnode
              have hle := weight_cons_le g V cur
              simp only [List.length_append, List.length_cons, h0,
                List.length_nil] at hm ⊢
              omega
          · by_cases hcur_u : u = cur
            · subst hcur_u
              obtain ⟨x, hx1, hx2, l3, hx3, hx4⟩ :=
                cut_witness g t u hct V l u hwl hlV (Or.inl rfl)
              exact ⟨x, List.mem_append.mpr (Or.inr hx1), hx2, l3, hx3, hx4⟩
            · have hur : u ∈ rest := by
                rcases List.mem_cons.mp huq with h2 | h2
                · exact absurd h2 hcur_u
                · exact h2
              by_cases hcl : cur ∈ l
              · obtain ⟨x, hx1, hx2, l3, hx3, hx4⟩ :=
                  cut_witness g t cur hct V l u hwl hlV (Or.inr hcl)
                exact ⟨x, List.mem_append.mpr (Or.inr hx1), hx2, l3, hx3, hx4⟩
              · refine ⟨u, List.mem_append.mpr (Or.inl hur), ?_, l, hwl, ?_⟩
                · intro hx
                  rcases List.mem_cons.mp hx with h2 | h2
                  · exact hcur_u h2
                  · exact huV h2
                · intro x hx hxc
                  rcases List.mem_cons.mp hxc with h2 | h2
                  · exact hcl (h2 ▸ hx)
                  · exact hlV x hx h2

/-- The BFS of `DAG::has_path` decides graph reachability. -/
theorem has_path_iff_Reach (g : DAGraph) (a b : Nat) :
    g.has_path a b = true ↔ g.Reach a b := by
  constructor
  · intro h
    refine bfsAux_sound g b a g.fuelBound [a] [] ?_ h
    intro u hu
    rcases List.mem_cons.mp hu with h2 | h2
    · exact ⟨[], h2.symm⟩
    · cases h2
  · rintro ⟨l, hl⟩
    apply bfsAux_complete
    · have hle : g.weight [] ≤ (g.adj.map (fun p => 1 + p.2.length)).sum := by
        unfold DAGraph.weight
        exact wlist_le_total g.adj _
      unfold DAGraph.fuelBound
      simp only [List.length_cons, List.length_nil]
      omega
    · refine ⟨a, List.mem_cons_self a [], by simp, l, hl, by simp⟩

/-- `add_node` registers its node. -/
theorem has_node_add_node_self (g : DAGraph) (n : Nat) :
    (g.add_node n).has_node n = true := by
  unfold DAGraph.add_node
  by_cases h : g.has_node n = true
  · rwa [if_pos h]
  · rw [if_neg h]
    unfold DAGraph.has_node
    simp

/-- `add_node` keeps previously registered nodes. -/
theorem has_node_add_node_of (g : DAGraph) (n x : Nat)
    (h : g.has_node x = true) : (g.add_node n).has_node x = true := by
  unfold DAGraph.add_node
  by_cases h2 : g.has_node n = true
  · rwa [if_pos h2]
  · rw [if_neg h2]
    unfold DAGraph.has_node at h ⊢
    rw [List.any_append, h]
    rfl

/-- Decomposing a walk in the graph with one extra edge `a → b`: either
the walk avoids the new edge, or it reaches `a` and continues from `b`. -/
theorem WalkL_addEdgeRaw_decompose (g : DAGraph) (a b : Nat)
    (ha : g.has_node a = true) :
    ∀ (l : List Nat) (u v : Nat), (g.addEdgeRaw a b).WalkL u l v →
    g.WalkL u l v ∨ (g.Reach u a ∧ g.Reach b v) := by
  intro l
  induction l with
  | nil =>
    intro u v h
    exact Or.inl h
  | cons x tl ih =>
    intro u v h
    obtain ⟨hedge, hw⟩ := h
    have hedge2 := (Edge_addEdgeRaw g a b u x ha).mp hedge
    rcases ih x v hw with hw2 | ⟨hra, hrb⟩
    · rcases hedge2 with he | ⟨hu, hx⟩
      · exact Or.inl ⟨he, hw2⟩
      · subst hu
        subst hx
        exact Or.inr ⟨⟨[], rfl⟩, ⟨tl, hw2⟩⟩
    · rcases hedge2 with he | ⟨hu, hx⟩
      · obtain ⟨l2, hl2⟩ := hra
        exact Or.inr ⟨⟨x :: l2, ⟨he, hl2⟩⟩, hrb⟩
      · subst hu
        exact Or.inr ⟨⟨[], rfl⟩, hrb⟩

/-- Acyclicity transfers backwards along an edge-relation inclusion. -/
theorem Acyclic_antitone (g1 g2 : DAGraph)
    (hsub : ∀ x y, g2.Edge x y → g1.Edge x y) (hacy : g1.Acyclic) :
    g2.Acyclic :=
  fun v l hw => hacy v l (WalkL_mono g2 g1 hsub l v v hw)

/-- Inserting an edge whose reverse is unreachable preserves acyclicity. -/
theorem Acyclic_addEdgeRaw (g : DAGraph) (a b : Nat)
    (ha : g.has_node a = true) (hnr : ¬ g.Reach b a) (hacy : g.Acyclic) :
    (g.addEdgeRaw a b).Acyclic := by
  intro v l hw
  rcases WalkL_addEdgeRaw_decompose g a b ha l v v hw with hw2 | ⟨hra, hrb⟩
  · exact hacy v l hw2
  · exact absurd (Reach_trans g b v a hrb hra) hnr

/-- The empty dependency graph has no cycle. -/
theorem Acyclic_emptyG : DAGraph.emptyG.Acyclic := by
  intro a l hw
  cases l with
  | nil => rfl
  | cons x tl =>
    obtain ⟨he, -⟩ := hw
    unfold DAGraph.Edge DAGraph.succs DAGraph.emptyG at he
    simp [List.find?] at he

/-- A rejected `add_edge` leaves exactly the node-registered graph. -/
theorem add_edge_fst_false_cases (g : DAGraph) (a b : Nat)
    (h : (g.add_edge a b).1 = false) :
    (g.add_edge a b).2 = (g.add_node a).add_node b := by
  unfold DAGraph.add_edge at h ⊢
  dsimp only at h ⊢
  by_cases hab : a = b
  · rw [if_pos hab]
  · rw [if_neg hab] at h ⊢
    by_cases hp : ((g.add_node a).add_node b).has_path b a = true
    · rw [if_pos hp]
    · rw [if_neg hp] at h
      simp at h

/-- Every graph produced by a sequence of `DAG` mutations is acyclic. -/
theorem DAGReached_acyclic (g : DAGraph) (hg : DAGReached g) : g.Acyclic := by
  induction hg with
  | empty => exact Acyclic_emptyG
  | add_node g2 n hg2 ih =>
    exact Acyclic_antitone g2 _ (fun x y h => (Edge_add_node g2 n x y).mp h) ih
  | add_edge g2 a b hg2 ih =>
    have hsub1 : ∀ x y, ((g2.add_node a).add_node b).Edge x y → g2.Edge x y :=
      fun x y h =>
        (Edge_add_node g2 a x y).mp ((Edge_add_node (g2.add_node a) b x y).mp h)
    have hacy1 : ((g2.add_node a).add_node b).Acyclic :=
      Acyclic_antitone g2 _ hsub1 ih
    unfold DAGraph.add_edge
    dsimp only
    by_cases hab : a = b
    · rw [if_pos hab]
      exact hacy1
    · rw [if_neg hab]
      by_cases hp : ((g2.add_node a).add_node b).has_path b a = true
      · rw [if_pos hp]
        exact hacy1
      · rw [if_neg hp]
        dsimp only
        have hnr : ¬ ((g2.add_node a).add_node b).Reach b a := fun hr =>
          hp ((has_path_iff_Reach _ b a).mpr hr)
        have ha : ((g2.add_node a).add_node b).has_node a = true :=
          has_node_add_node_of (g2.add_node a) b a (has_node_add_node_self g2 a)
        exact Acyclic_addEdgeRaw _ a b ha hnr hacy1
  | remove_edge g2 a b hg2 ih =>
    exact Acyclic_antitone g2 _ (fun x y h => Edge_remove_edge_sub g2 a b x y h) ih
  | remove_node g2 n hg2 ih =>
    exact Acyclic_antitone g2 _ (fun x y h => Edge_remove_node_sub g2 n x y h) ih

/-- C6 (amended): every graph reachable by `add_node` / `add_edge` /
`remove_edge` / `remove_node` from the empty graph is acyclic, and
`add_edge(from, to)` returns false exactly when `from = to` or a path from
`to` back to `from` already exists; on rejection no edge is added (though
`from` and `to` are registered as nodes by the unconditional `add_node`
calls). -/
theorem spec_C6_dag_acyclic (g : DAGraph) (hg : DAGReached g) (a b : Nat) :
    g.Acyclic ∧
    ((g.add_edge a b).1 = false ↔ (a = b ∨ g.Reach b a)) ∧
    ((g.add_edge a b).1 = false →
      ∀ x y, ((g.add_edge a b).2.Edge x y ↔ g.Edge x y)) := by
  refine ⟨DAGReached_acyclic g hg, ?_, ?_⟩
  · unfold DAGraph.add_edge
    dsimp only
    by_cases hab : a = b
    · rw [if_pos hab]
      simp [hab]
    · rw [if_neg hab]
      by_cases hp : ((g.add_node a).add_node b).has_path b a = true
      · rw [if_pos hp]
        dsimp only
        have hr : g.Reach b a :=
          (Reach_add_node g a b a).mp
            ((Reach_add_node (g.add_node a) b b a).mp
              ((has_path_iff_Reach _ b a).mp hp))
        simp [hr]
      · rw [if_neg hp]
        dsimp only
        have hnr : ¬ g.Reach b a := fun hr =>
          hp ((has_path_iff_Reach _ b a).mpr
            ((Reach_add_node (g.add_node a) b b a).mpr
              ((Reach_add_node g a b a).mpr hr)))
        simp [hab, hnr]
  · intro hf x y
    rw [add_edge_fst_false_cases g a b hf]
    rw [Edge_add_node, Edge_add_node]

/-- C6 counterexample to the claim as stated: a rejected self-edge on a
fresh node still mutates the graph, because `add_edge` registers both
endpoints before checking — so "the graph is unchanged" fails. -/
theorem spec_C6_counterexample :
    (DAGraph.emptyG.add_edge 1 1).1 = false ∧
    ¬ (DAGraph.emptyG.add_edge 1 1).2 = DAGraph.emptyG := by
  decide

/-- Witness instantiating the amended C6 theorem on the empty graph. -/
theorem spec_C6_witness :
    DAGReached DAGraph.emptyG ∧
    (DAGraph.emptyG.Acyclic ∧
      ((DAGraph.emptyG.add_edge 0 1).1 = false ↔
        (0 = 1 ∨ DAGraph.emptyG.Reach 1 0)) ∧
      ((DAGraph.emptyG.add_edge 0 1).1 = false →
        ∀ x y, ((DAGraph.emptyG.add_edge 0 1).2.Edge x y ↔
          DAGraph.emptyG.Edge x y))) :=
  ⟨DAGReached.empty, spec_C6_dag_acyclic DAGraph.emptyG DAGReached.empty 0 1⟩

/-- The byte-string encoding used as the witness hash is injective. -/
theorem listEncode_inj : ∀ a b : List Nat, listEncode a = listEncode b → a = b := by
  intro a
  induction a with
  | nil =>
    intro b h
    cases b with
    | nil => rfl
    | cons y m =>
      simp only [listEncode] at h
      omega
  | cons x l ih =>
    intro b h
    cases b with
    | nil =>
      simp only [listEncode] at h
      omega
    | cons y m =>
      simp only [listEncode] at h
      have h2 : Nat.pair x (listEncode l) = Nat.pair y (listEncode m) := by omega
      have h3 := Nat.pair_eq_pair.mp h2
      rw [h3.1, ih m h3.2]

/-- The concrete witness codec satisfies all the primitive assumptions. -/
theorem wCodec_good : GoodCodec wCodec := by
  refine ⟨listEncode_inj, ?_, ?_, ?_, ?_, ?_, ?_⟩
  · intro d
    exact List.cons_ne_nil 0 d
  · intro d
    rfl
  · intro d
    exact List.cons_ne_nil 1 d
  · intro d
    rfl
  · intro k d
    exact List.cons_ne_nil 2 d
  · intro k d
    rfl

/-- C2: the claimed ref-count invariant fails on the deduplicated path.
After backing up the same content twice, the single stored ChunkRecord
has `ref_count = 1` while two `file_chunks` rows name its hash: the
dedup branch of `store_file` only sets `ci.deduplicated` and never calls
`store_chunk` / `increment_chunk_ref`. -/
theorem spec_C2_dedup_refcount_bug :
    (dedupTwiceState.db.chunks.map (fun r => (r.hash, r.ref_count))
      = [(wCodec.sha [7], 1)]) ∧
    ((dedupTwiceState.db.file_chunks.filter
        (fun fc => fc.chunk_hash = wCodec.sha [7])).length = 2) := by
  decide

/-- C5: `mark_failed` persists FAILED with "Worker process failed" for the
job and CANCELLED for its direct dependent, and removes the node from the
DAG — but the dependent's error message is dropped: `update_job_status`
only binds the error text for COMPLETED or FAILED, so the CANCELLED row
keeps an empty `error_message` instead of "Dependency job 1 failed". -/
theorem spec_C5_cancel_message_dropped :
    ((schedC5.mark_failed 1).db.get_job 1).map
        (fun j => (j.status, j.error_message))
      = some (JobStatus.FAILED, "Worker process failed") ∧
    ((schedC5.mark_failed 1).db.get_job 2).map
        (fun j => (j.status, j.error_message))
      = some (JobStatus.CANCELLED, "") ∧
    ((schedC5.mark_failed 1).db.get_job 3).map
        (fun j => (j.status, j.error_message))
      = some (JobStatus.PENDING, "") ∧
    (schedC5.mark_failed 1).dep_graph = DAGraph.mk [(2, [])] := by
  decide

/-- Witness instantiating the C1 round-trip theorem: the witness codec on
a three-byte file, LZ4 compression and encryption enabled, over the empty
store (on which the store invariant holds vacuously). -/
theorem spec_C1_witness :
    GoodCodec wCodec ∧
    StoreInv wCodec CompressionType.LZ4 true [9] emptyStoreState ∧
    ChunkStore.restore_file wCodec
      (ChunkStore.store_file wCodec emptyStoreState "f" CompressionType.LZ4
        true [9] 1 "" [1, 2, 3] 0).1
      (ChunkStore.store_file wCodec emptyStoreState "f" CompressionType.LZ4
        true [9] 1 "" [1, 2, 3] 0).2
      CompressionType.LZ4 true [9] = (true, [1, 2, 3]) := by
  have hg : GoodCodec wCodec := wCodec_good
  have hinv : StoreInv wCodec CompressionType.LZ4 true [9] emptyStoreState :=
    fun r hr => absurd hr (List.not_mem_nil r)
  exact ⟨hg, hinv,
    spec_C1_store_restore_roundtrip wCodec hg CompressionType.LZ4 true [9]
      emptyStoreState hinv "f" "" [1, 2, 3] 0 1⟩

/-- Witness instantiating the C3 manifest-shape theorem on a two-byte
file with the witness codec. -/
theorem spec_C3_witness :
    (∀ k x, wCodec.aesEncrypt k x ≠ []) ∧
    (ChunkStore.store_file wCodec emptyStoreState "f" CompressionType.NONE
        false [] 1 "" [5, 6] 0).2.chunks.map (fun ci => ci.chunk_index)
      = List.range (ChunkStore.store_file wCodec emptyStoreState "f"
          CompressionType.NONE false [] 1 "" [5, 6] 0).2.chunks.length := by
  have wenc : ∀ k x, wCodec.aesEncrypt k x ≠ [] :=
    fun k x => List.cons_ne_nil 2 x
  exact ⟨wenc,
    (spec_C3_manifest_shape wCodec wenc emptyStoreState "f" "" [5, 6] 0
      CompressionType.NONE false [] 1 _ rfl).1⟩

/-- Witness instantiating the C4 chunk-count theorem on a 256 KiB file:
exactly 4 chunks. -/
theorem spec_C4_witness :
    (∀ k x, wCodec.aesEncrypt k x ≠ []) ∧
    List.replicate 262144 7 ≠ ([] : List Nat) ∧
    (ChunkStore.store_file wCodec emptyStoreState "f" CompressionType.NONE
        false [] 1 "" (List.replicate 262144 7) 0).2.chunks.length = 4 := by
  have wenc : ∀ k x, wCodec.aesEncrypt k x ≠ [] :=
    fun k x => List.cons_ne_nil 2 x
  have hne : List.replicate 262144 7 ≠ ([] : List Nat) := by
    intro hc
    have h2 := congrArg List.length hc
    rw [List.length_replicate, List.length_nil] at h2
    exact absurd h2 (by decide)
  have h := (spec_C4_fixed_chunking wCodec wenc emptyStoreState "f" ""
    (List.replicate 262144 7) 0 CompressionType.NONE false [] 1 hne _ rfl).1
  refine ⟨wenc, hne, ?_⟩
  rw [h, List.length_replicate]
  decide

/-- Witness instantiating the C7 verification theorem on the empty store. -/
theorem spec_C7_witness :
    (RestoreEngine.verify_backup emptyStoreState 1 = true ↔
      (∃ job, emptyStoreState.db.get_job 1 = some job ∧
        job.status = JobStatus.COMPLETED) ∧
      (∀ m ∈ emptyStoreState.db.get_file_manifests 1, ∀ ch ∈ m.chunks,
        ∃ meta, emptyStoreState.db.get_chunk_meta ch.hash = some meta ∧
          (diskLookup emptyStoreState.disk meta.storage_path).isSome = true)) ∧
    (∀ disk2 : Disk,
      (∀ p, (diskLookup disk2 p).isSome
        = (diskLookup emptyStoreState.disk p).isSome) →
      RestoreEngine.verify_backup { db := emptyStoreState.db, disk := disk2 } 1
        = RestoreEngine.verify_backup emptyStoreState 1) :=
  spec_C7_verify_backup emptyStoreState 1

/-- Witness instantiating the C8 control-flow theorem: a missing job makes
`restore_job` fail. -/
theorem spec_C8_witness :
    emptyStoreState.db.get_job 1 = none ∧
    (RestoreEngine.restore_job wCodec emptyStoreState 1 "d").success = false := by
  have h1 : emptyStoreState.db.get_job 1 = none := rfl
  exact ⟨h1, (spec_C8_restore_job wCodec emptyStoreState 1 "d").1 h1⟩

/-- Witness instantiating the C9 atomicity theorem: when the first chunk
insert fails, the store returns false and is exactly the pre-call store. -/
theorem spec_C9_witness :
    ((Database.empty.store_file_manifest (fun n => n == 1) 7
        (FileManifest.mk "a" "a" 1 0 0 [ciDefault])).1 = false) ∧
    (Database.empty.store_file_manifest (fun n => n == 1) 7
        (FileManifest.mk "a" "a" 1 0 0 [ciDefault])).2 = Database.empty := by
  have hf : (Database.empty.store_file_manifest (fun n => n == 1) 7
      (FileManifest.mk "a" "a" 1 0 0 [ciDefault])).1 = false := rfl
  exact ⟨hf, (spec_C9_manifest_atomicity Database.empty (fun n => n == 1) 7
    (FileManifest.mk "a" "a" 1 0 0 [ciDefault])).1 hf⟩

/-- Witness instantiating the C10 theorem on two one-chunk manifests that
differ exactly in the `deduplicated` flag. -/
theorem spec_C10_witness :
    EqModDedup (FileManifest.mk "p" "n" 1 0 3 [ciDefault])
      (FileManifest.mk "p" "n" 1 0 3 [{ ciDefault with deduplicated := true }]) ∧
    ChunkStore.restore_file wCodec emptyStoreState
        (FileManifest.mk "p" "n" 1 0 3 [ciDefault])
        CompressionType.NONE false []
      = ChunkStore.restore_file wCodec emptyStoreState
        (FileManifest.mk "p" "n" 1 0 3 [{ ciDefault with deduplicated := true }])
        CompressionType.NONE false [] := by
  have h : EqModDedup (FileManifest.mk "p" "n" 1 0 3 [ciDefault])
      (FileManifest.mk "p" "n" 1 0 3
        [{ ciDefault with deduplicated := true }]) :=
    ⟨rfl, rfl, rfl, rfl, rfl,
      List.Forall₂.cons ⟨rfl, rfl, rfl, rfl⟩ List.Forall₂.nil⟩
  exact ⟨h, spec_C10_restore_ignores_dedup wCodec emptyStoreState
    CompressionType.NONE false [] _ _ h⟩
